import Mathlib

/-!
Verification of the amaze2p server core: a shallow embedding of the lobby
manager (src/lobby.ts), the game engine and maze generator
(src/amaze2p/src/game.ts and maze.ts) and the relevant orchestrator steps
(src/server.ts), together with proofs of the specified properties.

Modelling conventions:
- The TS module-level Maps (lobbies, games) are association lists
  threaded through each operation; in-place mutation of a stored object
  becomes replacing the entry for its key.
- Thrown domain errors become an Except value returned together with the
  store; in the source every throw happens before any mutation, which the
  translation renders by returning the store unchanged on every error.
- Date.now() and the environment-configured MOVEMENT_SPEED_MS_PER_STEP are
  explicit parameters (now, speedMs).
- Math.random() is an explicit stream of naturals: a draw of
  Math.floor(Math.random() * n) becomes (head of the stream) % n, which
  ranges over exactly the same values; quantifying over all streams covers
  every outcome of the randomness.
- The unbounded while/recursion in the source carries an explicit fuel
  argument here; the fuel values used are proved sufficient, so the fuel-out
  branches are unreachable and the functions agree with the source loops.
-/

namespace Amaze

/-- Decidable equality for Except results, used to evaluate concrete runs. -/
instance {e a : Type} [DecidableEq e] [DecidableEq a] : DecidableEq (Except e a) := fun x y =>
  match x, y with
  | .error u, .error v =>
    if h : u = v then isTrue (by rw [h]) else isFalse (fun hc => by cases hc; exact h rfl)
  | .ok u, .ok v =>
    if h : u = v then isTrue (by rw [h]) else isFalse (fun hc => by cases hc; exact h rfl)
  | .error _, .ok _ => isFalse (fun hc => by cases hc)
  | .ok _, .error _ => isFalse (fun hc => by cases hc)

/-- Association-list view of a TS Map: the value stored under a key. -/
def lookup {α : Type} (m : List (String × α)) (k : String) : Option α :=
  (m.find? (fun e => e.1 == k)).map (fun e => e.2)

/-- In-place mutation of the object stored under a key: every entry with that
key is replaced (a Map holds each key once, so at most one entry changes). -/
def updateKV {α : Type} (m : List (String × α)) (k : String) (v : α) : List (String × α) :=
  m.map (fun e => if e.1 = k then (k, v) else e)

/-- Map.delete on the association-list view. -/
def removeKV {α : Type} (m : List (String × α)) (k : String) : List (String × α) :=
  m.filter (fun e => e.1 ≠ k)

/-! ## Lobby manager (src/lobby.ts) -/

/-- TS LobbyState.status. -/
inductive LobbyStatus
  | OPEN
  | STARTING
  | IN_GAME
deriving DecidableEq, Repr

/-- TS LobbyPlayer. -/
structure LobbyPlayer where
  clientId : String
  name : String
  acceptedGame : Bool
deriving DecidableEq, Repr

/-- TS LobbyState; selectedMazeSize is the numeric enum value. -/
structure LobbyState where
  code : String
  leaderId : String
  createdAt : Nat
  players : List LobbyPlayer
  selectedMazeSize : Nat
  status : LobbyStatus
deriving DecidableEq, Repr

/-- The lobbies Map of src/lobby.ts. -/
abbrev Lobbies := List (String × LobbyState)

/-- Domain errors thrown by the lobby manager. -/
inductive LobbyError
  | LOBBY_NOT_FOUND
  | ALREADY_IN_LOBBY
  | LOBBY_FULL
  | NOT_LEADER
  | INVALID_SIZE
  | NOT_IN_LOBBY
deriving DecidableEq, Repr

/-- MAX_PLAYERS = 2 in src/lobby.ts. -/
def MAX_PLAYERS : Nat := 2

/-- TS joinLobby: validate (not found / already a member / full), then append
the player and recompute the status exactly as the source does. -/
def joinLobby (lobbies : Lobbies) (code clientId name : String) :
    Lobbies × Except LobbyError LobbyState :=
  match lookup lobbies code with
  | none => (lobbies, .error .LOBBY_NOT_FOUND)
  | some lobby =>
    if (lobby.players.find? (fun p => p.clientId == clientId)).isSome then
      (lobbies, .error .ALREADY_IN_LOBBY)
    else if MAX_PLAYERS ≤ lobby.players.length then
      (lobbies, .error .LOBBY_FULL)
    else
      let player : LobbyPlayer := { clientId := clientId, name := name, acceptedGame := false }
      let lobby1 := { lobby with players := lobby.players ++ [player] }
      let lobby2 :=
        { lobby1 with
          status := if lobby1.players.length = MAX_PLAYERS then .OPEN else lobby1.status }
      (updateKV lobbies code lobby2, .ok lobby2)

/-- The default player value used only to mirror the source's players[0]
access on a list already known to be nonempty. -/
def defaultLobbyPlayer : LobbyPlayer := { clientId := "", name := "", acceptedGame := false }

/-- TS leaveLobby: filter the player out; delete the lobby when empty;
reassign leadership to players[0] when the leader left; status becomes OPEN. -/
def leaveLobby (lobbies : Lobbies) (code clientId : String) :
    Lobbies × Option LobbyState :=
  match lookup lobbies code with
  | none => (lobbies, none)
  | some lobby =>
    let remaining := lobby.players.filter (fun p => p.clientId != clientId)
    if remaining.length = 0 then
      (removeKV lobbies code, none)
    else
      let lobby1 := { lobby with players := remaining }
      let lobby2 :=
        if (remaining.find? (fun p => p.clientId == lobby.leaderId)).isSome then lobby1
        else { lobby1 with leaderId := (remaining.headD defaultLobbyPlayer).clientId }
      let lobby3 := { lobby2 with status := .OPEN }
      (updateKV lobbies code lobby3, some lobby3)

/-- TS startGame (src/lobby.ts): a pure status transition to STARTING. -/
def startGame (lobbies : Lobbies) (code : String) :
    Lobbies × Except LobbyError LobbyState :=
  match lookup lobbies code with
  | none => (lobbies, .error .LOBBY_NOT_FOUND)
  | some lobby =>
    let lobby1 := { lobby with status := LobbyStatus.STARTING }
    (updateKV lobbies code lobby1, .ok lobby1)

/-- TS resetAcceptances: set every member's acceptedGame to false. -/
def resetAcceptances (lobbies : Lobbies) (code : String) :
    Lobbies × Option LobbyState :=
  match lookup lobbies code with
  | none => (lobbies, none)
  | some lobby =>
    let lobby1 := { lobby with players := lobby.players.map (fun (p : LobbyPlayer) => { p with acceptedGame := false }) }
    (updateKV lobbies code lobby1, some lobby1)

/-- Mutating the first list element satisfying a predicate: the effect of
finding an object with Array.find and assigning one of its fields. -/
def updateFirst {α : Type} (l : List α) (p : α → Bool) (f : α → α) : List α :=
  match l with
  | [] => []
  | a :: rest => if p a then f a :: rest else a :: updateFirst rest p f

/-- The effect on one lobby of handleStartGame in src/server.ts after its
guards: startGame (status := STARTING), resetAcceptances, then set the
leader's acceptedGame to true via players.find. -/
def handleStartGameLobby (lobby : LobbyState) : LobbyState :=
  let l1 := { lobby with status := LobbyStatus.STARTING }
  let l2 := { l1 with players := l1.players.map (fun (p : LobbyPlayer) => { p with acceptedGame := false }) }
  { l2 with
    players := updateFirst l2.players (fun p => p.clientId == l2.leaderId)
      (fun (p : LobbyPlayer) => { p with acceptedGame := true }) }

/-! ## The maze grid (src/types.ts, shared by game.ts and maze.ts) -/

/-- TS Position. Coordinates are integers so that out-of-bounds probes
(x - 1 at the left edge, y - 1 at the top) are representable; the source
always checks bounds before indexing. -/
structure Position where
  x : Int
  y : Int
deriving DecidableEq, Repr

/-- TS MazeGrid: a row-major 2-D array of cell values (0 wall, 1 path, 2 exit). -/
abbrev MazeGrid := List (List Nat)

/-- grid.length in the source. -/
def gridHeight (g : MazeGrid) : Nat := g.length

/-- grid[0].length in the source. -/
def gridWidth (g : MazeGrid) : Nat := (g.headD []).length

/-- The bounds check the source performs before reading grid[p.y][p.x]. -/
def inBounds (g : MazeGrid) (p : Position) : Prop :=
  0 ≤ p.y ∧ p.y < (gridHeight g : Int) ∧ 0 ≤ p.x ∧ p.x < (gridWidth g : Int)

instance (g : MazeGrid) (p : Position) : Decidable (inBounds g p) := by
  unfold inBounds; infer_instance

/-- Reading grid[p.y][p.x]; a read outside the arrays yields 0, a wall (the
source only reads after a bounds check, or through optional chaining where
the absent value compares unequal to 1 and 2, which 0 also does). -/
def getCell (g : MazeGrid) (p : Position) : Nat :=
  if 0 ≤ p.x ∧ 0 ≤ p.y then (g.getD p.y.toNat []).getD p.x.toNat 0 else 0

/-- Writing grid[p.y][p.x] := v; out-of-range writes do nothing (the source
only writes in range). -/
def setCell (g : MazeGrid) (p : Position) (v : Nat) : MazeGrid :=
  if 0 ≤ p.x ∧ 0 ≤ p.y then g.set p.y.toNat ((g.getD p.y.toNat []).set p.x.toNat v) else g

/-! ## Game engine (src/amaze2p/src/game.ts) -/

/-- TS Direction. -/
inductive Direction
  | UP
  | DOWN
  | LEFT
  | RIGHT
deriving DecidableEq, Repr

/-- TS directionVectors. -/
def directionVectors : Direction → Position
  | .UP => ⟨0, -1⟩
  | .DOWN => ⟨0, 1⟩
  | .LEFT => ⟨-1, 0⟩
  | .RIGHT => ⟨1, 0⟩

/-- Object.keys(directionVectors) in declaration order. -/
def directionKeys : List Direction := [.UP, .DOWN, .LEFT, .RIGHT]

/-- One cell from p in direction d. -/
def stepPos (p : Position) (d : Direction) : Position :=
  ⟨p.x + (directionVectors d).x, p.y + (directionVectors d).y⟩

/-- TS isWalkable: a cell value of 1 or 2. -/
def isWalkable (value : Nat) : Bool := value == 1 || value == 2

/-- The condition under which the movement loop may enter a neighboring cell:
in bounds and walkable, exactly the checks of the source. -/
def stepFree (g : MazeGrid) (p : Position) : Prop :=
  inBounds g p ∧ isWalkable (getCell g p) = true

instance (g : MazeGrid) (p : Position) : Decidable (stepFree g p) := by
  unfold stepFree; infer_instance

/-- TS countOpenNeighbors: how many of the four neighbors are in bounds and
walkable. -/
def countOpenNeighbors (grid : MazeGrid) (position : Position) : Nat :=
  directionKeys.countP (fun d => decide (stepFree grid (stepPos position d)))

/-- The while loop of moveToNextJunction. The source bounds the loop by
steps < grid.length * grid[0].length and increments steps exactly once per
iteration, so running with fuel = grid.length * grid[0].length - steps is the
same loop; the fuel is proved never to run out below. -/
def moveLoop (grid : MazeGrid) (d : Direction) : Nat → Position → Nat → Position × Nat
  | 0, current, steps => (current, steps)
  | fuel + 1, current, steps =>
    let next := stepPos current d
    if stepFree grid next then
      if getCell grid next = 2 then (next, steps + 1)
      else if 3 ≤ countOpenNeighbors grid next then (next, steps + 1)
      else moveLoop grid d fuel next (steps + 1)
    else (current, steps)

/-- TS moveToNextJunction: run the loop from the start cell; none models the
INVALID_MOVE throw when zero steps were taken. -/
def moveToNextJunction (grid : MazeGrid) (start : Position) (direction : Direction) :
    Option (Position × Nat) :=
  let r := moveLoop grid direction (gridHeight grid * gridWidth grid) start 0
  if r.2 = 0 then none else some r

/-- TS GamePhase. -/
inductive GamePhase
  | WAITING
  | COUNTDOWN
  | PLAYING
  | FINISHED
deriving DecidableEq, Repr

/-- Domain errors thrown by the game engine. -/
inductive GameError
  | GAME_NOT_FOUND
  | GAME_NOT_READY
  | PLAYER_NOT_FOUND
  | INVALID_MOVE
deriving DecidableEq, Repr

/-- TS MazeMetadata. -/
structure MazeMetadata where
  grid : MazeGrid
  width : Nat
  height : Nat
  start : Position
  exit : Position
deriving DecidableEq, Repr

/-- TS PlayerGameState. -/
structure PlayerGameState where
  clientId : String
  name : String
  position : Position
  targetPosition : Option Position
  movementEndsAt : Option Nat
deriving DecidableEq, Repr

/-- TS GameState; the players Record is an association list keyed by clientId. -/
structure GameState where
  lobbyCode : String
  maze : MazeMetadata
  phase : GamePhase
  players : List (String × PlayerGameState)
  startedAt : Option Nat
  winnerId : Option String
  allowReconnectUntil : Option Nat
deriving DecidableEq, Repr

/-- The games Map of src/game.ts. -/
abbrev Games := List (String × GameState)

/-- TS MoveResult. -/
structure MoveResult where
  position : Position
  durationMs : Nat
deriving DecidableEq, Repr

/-- JS String.toUpperCase on ASCII input, written by mapping the character
list so that concrete runs evaluate in the kernel. -/
def toUpperString (s : String) : String := String.mk (s.data.map Char.toUpper)

/-- move.direction.toUpperCase() followed by the Object.hasOwn check: the
four recognized names map to their direction, everything else is invalid. -/
def parseDirection (s : String) : Option Direction :=
  let u := toUpperString s
  if u = "UP" then some .UP
  else if u = "DOWN" then some .DOWN
  else if u = "LEFT" then some .LEFT
  else if u = "RIGHT" then some .RIGHT
  else none

/-- TS handleMove. speedMs is MOVEMENT_SPEED_MS_PER_STEP and now is
Date.now(). Every throw in the source happens before any mutation, so each
error case returns the store unchanged. -/
def handleMove (speedMs now : Nat) (games : Games) (lobbyCode clientId : String)
    (moveDirection : String) : Games × Except GameError MoveResult :=
  match lookup games lobbyCode with
  | none => (games, .error .GAME_NOT_FOUND)
  | some game =>
    if game.phase ≠ GamePhase.PLAYING then (games, .error .GAME_NOT_READY)
    else
      match lookup game.players clientId with
      | none => (games, .error .PLAYER_NOT_FOUND)
      | some player =>
        match parseDirection moveDirection with
        | none => (games, .error .INVALID_MOVE)
        | some direction =>
          match moveToNextJunction game.maze.grid player.position direction with
          | none => (games, .error .INVALID_MOVE)
          | some (position, steps) =>
            let durationMs := steps * speedMs
            let movementEndsAt := now + durationMs
            let player1 :=
              { player with
                position := position
                targetPosition := some position
                movementEndsAt := some movementEndsAt }
            let game1 := { game with players := updateKV game.players clientId player1 }
            let game2 :=
              if getCell game1.maze.grid position = 2 then
                { game1 with phase := GamePhase.FINISHED, winnerId := some clientId }
              else game1
            (updateKV games lobbyCode game2, .ok { position := position, durationMs := durationMs })

/-! ## Maze generation (src/amaze2p/src/maze.ts) -/

/-- One draw of Math.floor(Math.random() * n) from an explicit stream: the
head of the stream reduced mod n, together with the rest of the stream. -/
def randBelow (rng : List Nat) (n : Nat) : Nat × List Nat :=
  ((rng.headD 0) % n, rng.tail)

/-- Swapping input[i] and input[j] in the Fisher-Yates loop. -/
def listSwap {α : Type} (l : List α) (i j : Nat) : List α :=
  match l.get? i, l.get? j with
  | some a, some b => (l.set i b).set j a
  | _, _ => l

/-- The Fisher-Yates loop of TS shuffle: the argument is the current loop
index i (counting down to 1); each round draws j below i + 1 and swaps. -/
def shuffleAux {α : Type} : Nat → List α → List Nat → List α × List Nat
  | 0, l, rng => (l, rng)
  | i + 1, l, rng =>
    let r := randBelow rng (i + 2)
    shuffleAux i (listSwap l (i + 1) r.1) r.2

/-- TS shuffle (in-place Fisher-Yates on a copy of the input). -/
def shuffle {α : Type} (input : List α) (rng : List Nat) : List α × List Nat :=
  shuffleAux (input.length - 1) input rng

/-- TS DIRECTIONS: the four lattice steps of the carver. -/
def DIRECTIONS : List Position := [⟨0, -2⟩, ⟨2, 0⟩, ⟨0, 2⟩, ⟨-2, 0⟩]

/-- The body of the for-loop of TS carveMaze for one shuffled direction:
skip a neighbor outside the interior or already carved, otherwise carve the
connecting wall cell and recurse into the neighbor. The recursive call is
passed in so the loop can be analyzed separately from the recursion. -/
def carveStep (recur : MazeGrid → Int → Int → List Nat → MazeGrid × List Nat)
    (x y : Int) (acc : MazeGrid × List Nat) (d : Position) : MazeGrid × List Nat :=
  let grid := acc.1
  let nx := x + d.x
  let ny := y + d.y
  if ny ≤ 0 ∨ (gridHeight grid : Int) - 1 ≤ ny ∨ nx ≤ 0 ∨ (gridWidth grid : Int) - 1 ≤ nx then
    acc
  else if getCell grid ⟨nx, ny⟩ ≠ 0 then acc
  else
    let grid2 := setCell grid ⟨x + d.x / 2, y + d.y / 2⟩ 1
    recur grid2 nx ny acc.2

/-- TS carveMaze: mark the cell as path, then fold the loop body over the
shuffled directions. The source recursion is bounded by the number of
uncarved cells; fuel makes that explicit and is proved sufficient below. -/
def carveMazeF : Nat → MazeGrid → Int → Int → List Nat → MazeGrid × List Nat
  | 0, grid, _, _, rng => (grid, rng)
  | fuel + 1, grid, x, y, rng =>
    let grid1 := setCell grid ⟨x, y⟩ 1
    let s := shuffle DIRECTIONS rng
    s.1.foldl (carveStep (carveMazeF fuel) x y) (grid1, s.2)

/-- TS isPath: the cell value at pos is 1 or 2 (reads through optional
chaining, so out-of-range reads are not path). -/
def isPath (grid : MazeGrid) (pos : Position) : Bool :=
  getCell grid pos == 1 || getCell grid pos == 2

/-- TS neighbors: the in-bounds path cells among the four neighbors, in the
deltas order up, right, down, left. -/
def neighbors (grid : MazeGrid) (pos : Position) : List Position :=
  ([⟨0, -1⟩, ⟨1, 0⟩, ⟨0, 1⟩, ⟨-1, 0⟩] : List Position).filterMap (fun d =>
    let n : Position := ⟨pos.x + d.x, pos.y + d.y⟩
    if inBounds grid n ∧ isPath grid n then some n else none)

/-- The integers 1, 2, ..., n (empty when n is not positive): the index
ranges of the border scans in TS findExit. -/
def intsFrom1To (n : Int) : List Int :=
  List.map (fun (i : Nat) => (i : Int) + 1) (List.range n.toNat)

/-- The exits array built by TS findExit before the fallback: for each border
side, the border cells whose interior-adjacent cell is a carved path cell,
in the push order of the source (top and bottom interleaved, then left and
right interleaved). -/
def exitCandidates (grid : MazeGrid) : List Position :=
  let maxY : Int := (gridHeight grid : Int) - 1
  let maxX : Int := (gridWidth grid : Int) - 1
  (intsFrom1To (maxX - 1)).flatMap (fun x =>
    (if getCell grid ⟨x, 1⟩ = 1 then [(⟨x, 0⟩ : Position)] else []) ++
    (if getCell grid ⟨x, maxY - 1⟩ = 1 then [(⟨x, maxY⟩ : Position)] else [])) ++
  (intsFrom1To (maxY - 1)).flatMap (fun y =>
    (if getCell grid ⟨1, y⟩ = 1 then [(⟨0, y⟩ : Position)] else []) ++
    (if getCell grid ⟨maxX - 1, y⟩ = 1 then [(⟨maxX, y⟩ : Position)] else []))

/-- TS findExit: pick a random candidate, falling back to a fixed cell next
to the bottom-right corner when no candidate exists. -/
def findExit (grid : MazeGrid) (rng : List Nat) : Position × List Nat :=
  let maxY : Int := (gridHeight grid : Int) - 1
  let maxX : Int := (gridWidth grid : Int) - 1
  let exits0 := exitCandidates grid
  let exits := if exits0 = [] then [(⟨maxX, maxY - 1⟩ : Position)] else exits0
  let r := randBelow rng exits.length
  (exits.getD r.1 ⟨maxX, maxY - 1⟩, r.2)

/-- The while loop of TS computeFarthestPosition: a FIFO queue of
(position, distance) entries, a visited set (the source keys it by the
injective string x,y, so a set of positions is the same set), and the
running farthest entry, updated only on strictly larger distance. The
source loop always terminates because pushed entries are walkable in-bounds
cells; the fuel makes that explicit and is proved sufficient below. -/
def bfsLoopF (grid : MazeGrid) :
    Nat → List Position → List (Position × Nat) → Position × Nat → Position × Nat
  | 0, _, _, farthest => farthest
  | _ + 1, _, [], farthest => farthest
  | fuel + 1, visited, next :: rest, farthest =>
    if next.1 ∈ visited then bfsLoopF grid fuel visited rest farthest
    else
      let visited1 := next.1 :: visited
      let farthest1 := if farthest.2 < next.2 then next else farthest
      bfsLoopF grid fuel visited1
        (rest ++ (neighbors grid next.1).map (fun n => (n, next.2 + 1))) farthest1

/-- Fuel sufficient for the whole BFS, proved below from a decreasing
measure of the loop state. -/
def bfsFuel (grid : MazeGrid) : Nat := 5 * (gridHeight grid * gridWidth grid) + 6

/-- TS computeFarthestPosition: BFS from start, returning the position of the
first entry found at the maximum distance. -/
def computeFarthestPosition (grid : MazeGrid) (start : Position) : Position :=
  (bfsLoopF grid (bfsFuel grid) [] [(start, 0)] (start, 0)).1

/-- The all-walls grid allocated by TS generateMaze. -/
def initialGrid (size : Nat) : MazeGrid :=
  List.replicate (size * 2 + 1) (List.replicate (size * 2 + 1) 0)

/-- Fuel for carveMazeF: one more than the cell count, which bounds the
recursion depth since every recursive call carves a fresh cell. -/
def carveFuel (size : Nat) : Nat := (size * 2 + 1) * (size * 2 + 1) + 1

/-- TS generateMaze: allocate, carve from (1,1), choose and mark the exit,
then place the start at the BFS-farthest cell from the exit. -/
def generateMaze (size : Nat) (rng : List Nat) : MazeMetadata × List Nat :=
  let width := size * 2 + 1
  let height := size * 2 + 1
  let c := carveMazeF (carveFuel size) (initialGrid size) 1 1 rng
  let e := findExit c.1 c.2
  let grid2 := setCell c.1 e.1 2
  let start := computeFarthestPosition grid2 e.1
  ({ grid := grid2, width := width, height := height, start := start, exit := e.1 }, e.2)

/-! ## Game lifecycle (src/amaze2p/src/game.ts) -/

/-- TS PlayerInfo. -/
structure PlayerInfo where
  clientId : String
  name : String
deriving DecidableEq, Repr

/-- RECONNECT_WINDOW_MS = 30000 in src/game.ts. -/
def RECONNECT_WINDOW_MS : Nat := 30000

/-- Map.set / object key assignment: replace an existing entry or append. -/
def setKV {α : Type} (m : List (String × α)) (k : String) (v : α) : List (String × α) :=
  if (lookup m k).isSome then updateKV m k v else m ++ [(k, v)]

/-- TS createGame: generate a maze, place every player at the maze start,
store and return the WAITING game. -/
def createGame (rng : List Nat) (now : Nat) (games : Games) (lobbyCode : String)
    (size : Nat) (players : List PlayerInfo) : Games × GameState :=
  let mz := generateMaze size rng
  let maze := mz.1
  let playerStates := players.foldl (fun acc p =>
    setKV acc p.clientId
      { clientId := p.clientId, name := p.name, position := maze.start,
        targetPosition := none, movementEndsAt := none }) []
  let game : GameState :=
    { lobbyCode := lobbyCode, maze := maze, phase := GamePhase.WAITING,
      players := playerStates, startedAt := none, winnerId := none,
      allowReconnectUntil := some (now + RECONNECT_WINDOW_MS) }
  (setKV games lobbyCode game, game)

/-- TS startCountdown: phase COUNTDOWN, startedAt the countdown deadline. -/
def startCountdown (now : Nat) (games : Games) (lobbyCode : String)
    (countdownSeconds : Nat) : Games × Except GameError GameState :=
  match lookup games lobbyCode with
  | none => (games, .error .GAME_NOT_FOUND)
  | some game =>
    let game1 :=
      { game with phase := GamePhase.COUNTDOWN, startedAt := some (now + countdownSeconds * 1000) }
    (updateKV games lobbyCode game1, .ok game1)

/-- TS beginGame: phase PLAYING, fresh startedAt and reconnect window. -/
def beginGame (now : Nat) (games : Games) (lobbyCode : String) :
    Games × Except GameError GameState :=
  match lookup games lobbyCode with
  | none => (games, .error .GAME_NOT_FOUND)
  | some game =>
    let game1 :=
      { game with
        phase := GamePhase.PLAYING
        startedAt := some now
        allowReconnectUntil := some (now + RECONNECT_WINDOW_MS) }
    (updateKV games lobbyCode game1, .ok game1)

/-- TS markPlayerDisconnected: extend the reconnect window when both the game
and the player exist; never touches positions or phase. -/
def markPlayerDisconnected (now : Nat) (games : Games) (lobbyCode clientId : String) :
    Games × Option GameState :=
  match lookup games lobbyCode with
  | none => (games, none)
  | some game =>
    match lookup game.players clientId with
    | none => (games, some game)
    | some _ =>
      let game1 := { game with allowReconnectUntil := some (now + RECONNECT_WINDOW_MS) }
      (updateKV games lobbyCode game1, some game1)

/-- TS markPlayerReconnected: same effect as markPlayerDisconnected. -/
def markPlayerReconnected (now : Nat) (games : Games) (lobbyCode clientId : String) :
    Games × Option GameState :=
  match lookup games lobbyCode with
  | none => (games, none)
  | some game =>
    match lookup game.players clientId with
    | none => (games, some game)
    | some _ =>
      let game1 := { game with allowReconnectUntil := some (now + RECONNECT_WINDOW_MS) }
      (updateKV games lobbyCode game1, some game1)

/-! ## Concrete fixtures used by the witness theorems -/

/-- A one-member lobby led by its only member. -/
def lobbyA : LobbyState :=
  { code := "1234", leaderId := "c1", createdAt := 0,
    players := [{ clientId := "c1", name := "Ann", acceptedGame := false }],
    selectedMazeSize := 10, status := LobbyStatus.OPEN }

/-- A two-member lobby led by its first member. -/
def lobbyB : LobbyState :=
  { code := "1234", leaderId := "c1", createdAt := 0,
    players :=
      [{ clientId := "c1", name := "Ann", acceptedGame := false },
       { clientId := "c2", name := "Bob", acceptedGame := true }],
    selectedMazeSize := 10, status := LobbyStatus.OPEN }

/-- A walkable cell: its value is the path value 1 or the exit value 2. -/
def walkableAt (g : MazeGrid) (p : Position) : Prop :=
  getCell g p = 1 ∨ getCell g p = 2

instance (g : MazeGrid) (p : Position) : Decidable (walkableAt g p) := by
  unfold walkableAt; infer_instance

/-- Two cells are 4-neighbors. -/
def adjacent (p q : Position) : Prop :=
  (p.x - q.x).natAbs + (p.y - q.y).natAbs = 1

instance (p q : Position) : Decidable (adjacent p q) := by
  unfold adjacent; infer_instance

/-- A simple walkable path from a to b: nonempty, consecutive cells
4-adjacent, no repeated cell, every cell walkable. -/
def WalkPath (g : MazeGrid) (a b : Position) (l : List Position) : Prop :=
  l.head? = some a ∧ l.getLast? = some b ∧ l.Nodup ∧
    (∀ p ∈ l, walkableAt g p) ∧ l.Chain' adjacent

/-- The perfect-maze property: between any two walkable cells there is
exactly one simple walkable path (hence connectivity and acyclicity). -/
def PerfectOn (g : MazeGrid) : Prop :=
  ∀ a b, walkableAt g a → walkableAt g b → ∃! l, WalkPath g a b l

/-- Number of cells holding 0; it bounds the carver recursion depth. -/
def zeroCount (g : MazeGrid) : Nat :=
  (g.map (fun row => row.countP (fun v => v == 0))).sum

/-- A rectangular grid of the given dimensions. -/
def rectGrid (g : MazeGrid) (W H : Nat) : Prop :=
  g.length = H ∧ ∀ row ∈ g, row.length = W

/-- Interior cell of a W×H grid: away from every border. -/
def inInterior (W H : Nat) (p : Position) : Prop :=
  1 ≤ p.x ∧ p.x ≤ (W : Int) - 2 ∧ 1 ≤ p.y ∧ p.y ≤ (H : Int) - 2

/-- Border cell of a W×H grid. -/
def onBorder (W H : Nat) (p : Position) : Prop :=
  (0 ≤ p.x ∧ p.x < (W : Int) ∧ 0 ≤ p.y ∧ p.y < (H : Int)) ∧
  (p.x = 0 ∨ p.x = (W : Int) - 1 ∨ p.y = 0 ∨ p.y = (H : Int) - 1)

/-- Odd-odd cells: the lattice on which the carver recurses. -/
def latticeCell (p : Position) : Prop := p.x % 2 = 1 ∧ p.y % 2 = 1

/-- Cells with both coordinates even; never carved. -/
def evenEven (p : Position) : Prop := p.x % 2 = 0 ∧ p.y % 2 = 0

/-- Every walkable non-lattice cell (a carved connector) has all of its
lattice 4-neighbors walkable, except possibly a single excluded cell (the
carve target currently being entered). -/
def ConnOk (g : MazeGrid) (except : Option Position) : Prop :=
  ∀ p, walkableAt g p → ¬ latticeCell p →
    ∀ q, adjacent q p → latticeCell q → walkableAt g q ∨ some q = except

/-- The invariant the carver maintains on the grid between recursive calls. -/
structure CarveInv (W H : Nat) (g : MazeGrid) : Prop where
  rect : rectGrid g W H
  vals : ∀ p, getCell g p = 0 ∨ getCell g p = 1
  interior : ∀ p, walkableAt g p → inInterior W H p
  noEE : ∀ p, walkableAt g p → ¬ evenEven p
  conn : ConnOk g none
  perfect : PerfectOn g

/-- Precondition of carveMazeF at target t: the invariant holds except that
connectors may still point at t, t is an uncarved interior lattice cell, and
t has at most one walkable neighbor (none only when the grid is empty). -/
def CarvePre (W H : Nat) (g : MazeGrid) (t : Position) : Prop :=
  rectGrid g W H ∧ (∀ p, getCell g p = 0 ∨ getCell g p = 1) ∧
  (∀ p, walkableAt g p → inInterior W H p) ∧
  (∀ p, walkableAt g p → ¬ evenEven p) ∧
  ConnOk g (some t) ∧ PerfectOn g ∧
  latticeCell t ∧ inInterior W H t ∧ getCell g t = 0 ∧
  ((∀ p, ¬ walkableAt g p) ∨
    (∃ u, adjacent u t ∧ walkableAt g u ∧ ∀ q, adjacent q t → walkableAt g q → q = u))

/-- Postcondition of carveMazeF: the full invariant, the target carved,
walkability only grows and the zero count only shrinks. -/
def CarvePost (W H : Nat) (g g' : MazeGrid) (t : Position) : Prop :=
  CarveInv W H g' ∧ walkableAt g' t ∧
  (∀ p, walkableAt g p → walkableAt g' p) ∧ zeroCount g' ≤ zeroCount g

/-- One game-engine operation as invoked by the orchestrator. -/
inductive GameOp
  | create (rng : List Nat) (now : Nat) (lobbyCode : String) (size : Nat)
      (players : List PlayerInfo)
  | countdown (now : Nat) (lobbyCode : String) (seconds : Nat)
  | begin (now : Nat) (lobbyCode : String)
  | move (speedMs now : Nat) (lobbyCode clientId dir : String)
  | disconnect (now : Nat) (lobbyCode clientId : String)
  | reconnect (now : Nat) (lobbyCode clientId : String)

/-- Apply one operation to the games store. -/
def applyGameOp (games : Games) : GameOp → Games
  | .create rng now code size players => (createGame rng now games code size players).1
  | .countdown now code secs => (startCountdown now games code secs).1
  | .begin now code => (beginGame now games code).1
  | .move speedMs now code cid dir => (handleMove speedMs now games code cid dir).1
  | .disconnect now code cid => (markPlayerDisconnected now games code cid).1
  | .reconnect now code cid => (markPlayerReconnected now games code cid).1

/-- A well-typed operation: created sizes come from the MazeSize enum
(10, 20, 30, 40, 50), hence are at least 1. -/
def GameOpValid : GameOp → Prop
  | .create _ _ _ size _ => 1 ≤ size
  | _ => True

/-- The C9 invariant: every player entry of every stored game sits on a
walkable cell of that game's maze. -/
def PositionsWalkable (games : Games) : Prop :=
  ∀ e ∈ games, ∀ pe ∈ e.2.players, walkableAt e.2.maze.grid pe.2.position

/-- The cell n steps from p in direction d: the spec's notion of walking a
straight glide. -/
def stepN (p : Position) (d : Direction) (n : Nat) : Position :=
  ⟨p.x + n * (directionVectors d).x, p.y + n * (directionVectors d).y⟩

/-- The spec's stopping conditions (a) and (b): the cell just entered is the
exit, or it is a junction (three or more walkable 4-neighbors). -/
def hardStop (g : MazeGrid) (p : Position) : Prop :=
  getCell g p = 2 ∨ 3 ≤ countOpenNeighbors g p

/-- A 5-wide corridor maze: from (1,1) the glide RIGHT covers two cells and
stops at the wall before (4,1). -/
def mazeC : MazeMetadata :=
  { grid := [[0, 0, 0, 0, 0], [0, 1, 1, 1, 0], [0, 0, 0, 0, 0]], width := 5, height := 3,
    start := ⟨1, 1⟩, exit := ⟨3, 1⟩ }

/-- The player standing at (1,1) of the corridor maze. -/
def playerC : PlayerGameState :=
  { clientId := "c1", name := "Ann", position := ⟨1, 1⟩,
    targetPosition := none, movementEndsAt := none }

/-- A PLAYING game on the corridor maze. -/
def gameC : GameState :=
  { lobbyCode := "1234", maze := mazeC, phase := GamePhase.PLAYING,
    players := [("c1", playerC)],
    startedAt := some 0, winnerId := none, allowReconnectUntil := none }

/-- A 3x3 maze whose only path cell is (1,1) with the exit above it. -/
def mazeW : MazeMetadata :=
  { grid := [[0, 2, 0], [0, 1, 0], [0, 0, 0]], width := 3, height := 3,
    start := ⟨1, 1⟩, exit := ⟨1, 0⟩ }

/-- A PLAYING game on mazeW with one player standing at (1,1). -/
def gameW : GameState :=
  { lobbyCode := "1234", maze := mazeW, phase := GamePhase.PLAYING,
    players := [("c1",
      { clientId := "c1", name := "Ann", position := ⟨1, 1⟩,
        targetPosition := none, movementEndsAt := none })],
    startedAt := some 0, winnerId := none, allowReconnectUntil := none }

/-! ## The BFS graph of computeFarthestPosition and its discovery order -/

/-- A BFS graph node of computeFarthestPosition: an in-bounds path cell,
exactly the condition under which the source pushes a neighbor. -/
def nodeOk (g : MazeGrid) (p : Position) : Prop :=
  inBounds g p ∧ isPath g p = true

instance (g : MazeGrid) (p : Position) : Decidable (nodeOk g p) := by
  unfold nodeOk; infer_instance

/-- Walks of a given length through the BFS graph: from a, each step moves to
a 4-adjacent in-bounds path cell. -/
inductive ReachN (g : MazeGrid) (a : Position) : Position → Nat → Prop
  | zero : ReachN g a a 0
  | succ {b c : Position} {n : Nat} (h : ReachN g a b n) (hadj : adjacent b c)
      (hc : nodeOk g c) : ReachN g a c (n + 1)

/-- b lies at BFS (shortest-walk) distance d from a. -/
def IsDist (g : MazeGrid) (a b : Position) (d : Nat) : Prop :=
  ReachN g a b d ∧ ∀ n, ReachN g a b n → d ≤ n

/-- The spec's first-found order: the source BFS loop instrumented to record
each cell the moment it is popped unvisited, together with its distance, in
FIFO expansion order. Every state update is identical to bfsLoopF. -/
def bfsTraceF (grid : MazeGrid) :
    Nat → List Position → List (Position × Nat) → List (Position × Nat) →
      List (Position × Nat)
  | 0, _, _, acc => acc
  | _ + 1, _, [], acc => acc
  | fuel + 1, visited, next :: rest, acc =>
    if next.1 ∈ visited then bfsTraceF grid fuel visited rest acc
    else
      bfsTraceF grid fuel (next.1 :: visited)
        (rest ++ (neighbors grid next.1).map (fun n => (n, next.2 + 1)))
        (acc ++ [next])

/-- The farthest-update of the source loop: replace only on strictly larger
distance, keeping the earlier entry on ties. -/
def stepFar (far e : Position × Nat) : Position × Nat :=
  if far.2 < e.2 then e else far

/-- All cell positions of the grid. -/
def allCells (g : MazeGrid) : List Position :=
  (List.range (gridHeight g)).flatMap (fun (y : Nat) =>
    (List.range (gridWidth g)).map (fun (x : Nat) =>
      { x := (x : Int), y := (y : Int) }))

/-- The number of BFS nodes not yet visited; drives the loop's termination
measure. -/
def unvisitedCount (g : MazeGrid) (V : List Position) : Nat :=
  (allCells g).countP (fun p => decide (nodeOk g p) && !(decide (p ∈ V)))

/-- The loop invariant of the source BFS from E: the queue is a frontier A
whose entries carry distance D followed by the next frontier B at D+1, every
entry is reachable at its carried distance, visited cells are settled at true
distance at most D with all their neighbors visited or queued, every cell
strictly closer than D is visited, and every distance-D cell is visited or
still in A. -/
structure BfsInv (g : MazeGrid) (E : Position) (D : Nat) (V : List Position)
    (A B : List (Position × Nat)) : Prop where
  qsound : ∀ e ∈ A ++ B, ReachN g E e.1 e.2 ∧ nodeOk g e.1
  da : ∀ e ∈ A, e.2 = D
  db : ∀ e ∈ B, e.2 = D + 1
  vsound : ∀ v ∈ V, ∃ d, IsDist g E v d ∧ d ≤ D
  vclosed : ∀ v ∈ V, ∀ c, adjacent v c → nodeOk g c → c ∈ V ∨ ∃ d, (c, d) ∈ A ++ B
  near : ∀ p d, IsDist g E p d → d < D → p ∈ V
  frontier : ∀ p, IsDist g E p D → p ∈ V ∨ (p, D) ∈ A

/-- The invariant in queue-normalized form: the A-frontier is empty only when
the whole queue is. -/
def InvN (g : MazeGrid) (E : Position) (V : List Position)
    (Q : List (Position × Nat)) : Prop :=
  ∃ D A B, Q = A ++ B ∧ BfsInv g E D V A B ∧ (B ≠ [] → A ≠ [])

/-- What the BFS from E achieves when run from a state with visited set V:
every discovered entry carries its true distance, and every cell at any
distance is already visited or gets discovered. -/
def TraceGood (g : MazeGrid) (E : Position) (V : List Position)
    (T : List (Position × Nat)) : Prop :=
  (∀ e ∈ T, IsDist g E e.1 e.2) ∧
  (∀ p d, IsDist g E p d → p ∈ V ∨ (p, d) ∈ T)

/-! ## Lemmas and claim theorems -/

theorem updateFirst_mem {α : Type} {l : List α} {p : α → Bool} {f : α → α} {x : α}
    (h : x ∈ updateFirst l p f) : x ∈ l ∨ ∃ a ∈ l, p a = true ∧ x = f a := by
  induction l with
  | nil => simp [updateFirst] at h
  | cons a rest ih =>
    simp only [updateFirst] at h
    by_cases hp : p a
    · rw [if_pos hp] at h
      rcases List.mem_cons.mp h with h | h
      · exact Or.inr ⟨a, by simp, hp, h⟩
      · exact Or.inl (List.mem_cons_of_mem _ h)
    · rw [if_neg hp] at h
      rcases List.mem_cons.mp h with h | h
      · exact Or.inl (by simp [h])
      · rcases ih h with h' | ⟨b, hb, hpb, hx⟩
        · exact Or.inl (List.mem_cons_of_mem _ h')
        · exact Or.inr ⟨b, List.mem_cons_of_mem _ hb, hpb, hx⟩

theorem updateFirst_hits {α : Type} {l : List α} {p : α → Bool} {f : α → α}
    (h : ∃ a ∈ l, p a = true) : ∃ a ∈ l, p a = true ∧ f a ∈ updateFirst l p f := by
  induction l with
  | nil => simp at h
  | cons a rest ih =>
    by_cases hp : p a
    · exact ⟨a, by simp, hp, by simp [updateFirst, hp]⟩
    · rcases h with ⟨b, hb, hpb⟩
      rcases List.mem_cons.mp hb with rfl | hb'
      · exact absurd hpb hp
      · rcases ih ⟨b, hb', hpb⟩ with ⟨c, hc, hpc, hfc⟩
        exact ⟨c, List.mem_cons_of_mem _ hc, hpc, by simp [updateFirst, hp, hfc]⟩

/-- C6: joinLobby fails with LOBBY_NOT_FOUND on an unknown code, with
ALREADY_IN_LOBBY when the client is already a member, and with LOBBY_FULL
when the lobby already has two members; every failure leaves the store (in
particular the full lobby's player list) unchanged, and a successful join of
a live one-member lobby appends the player and leaves the status OPEN. -/
theorem C6_joinLobby (lobbies : Lobbies) (code clientId name : String) :
    (lookup lobbies code = none →
      joinLobby lobbies code clientId name = (lobbies, .error .LOBBY_NOT_FOUND)) ∧
    (∀ lobby, lookup lobbies code = some lobby →
      ((∃ p ∈ lobby.players, p.clientId = clientId) →
        joinLobby lobbies code clientId name = (lobbies, .error .ALREADY_IN_LOBBY)) ∧
      ((∀ p ∈ lobby.players, p.clientId ≠ clientId) → 2 ≤ lobby.players.length →
        joinLobby lobbies code clientId name = (lobbies, .error .LOBBY_FULL)) ∧
      ((∀ p ∈ lobby.players, p.clientId ≠ clientId) → lobby.players.length = 1 →
        ∃ lobby2,
          joinLobby lobbies code clientId name = (updateKV lobbies code lobby2, .ok lobby2) ∧
          lobby2.players =
            lobby.players ++ [{ clientId := clientId, name := name, acceptedGame := false }] ∧
          lobby2.status = LobbyStatus.OPEN)) := by
  constructor
  · intro h
    simp [joinLobby, h]
  · intro lobby h
    refine ⟨?_, ?_, ?_⟩
    · intro hmem
      have hfind : (lobby.players.find? (fun p => p.clientId == clientId)).isSome := by
        rw [List.find?_isSome]
        rcases hmem with ⟨p, hp, hpc⟩
        exact ⟨p, hp, by simp [hpc]⟩
      simp [joinLobby, h, hfind]
    · intro hnom hfull
      have hfind : lobby.players.find? (fun p => p.clientId == clientId) = none := by
        rw [List.find?_eq_none]
        intro p hp
        simp [hnom p hp]
      simp [joinLobby, h, hfind, MAX_PLAYERS, hfull]
    · intro hnom hlen
      have hfind : lobby.players.find? (fun p => p.clientId == clientId) = none := by
        rw [List.find?_eq_none]
        intro p hp
        simp [hnom p hp]
      refine ⟨{ lobby with
          players := lobby.players ++ [{ clientId := clientId, name := name, acceptedGame := false }],
          status := LobbyStatus.OPEN }, ?_, rfl, rfl⟩
      simp only [joinLobby, h, hfind, Option.isSome_none, Bool.false_eq_true, if_false,
        MAX_PLAYERS]
      rw [if_neg (by omega), if_pos (by simp [hlen])]

/-- C6 witness: joining the full two-member lobby fails with LOBBY_FULL and
leaves the store unchanged. -/
theorem C6_joinLobby_witness :
    joinLobby [("1234", lobbyB)] "1234" "c3" "Cyn" = ([("1234", lobbyB)], .error .LOBBY_FULL) :=
  ((C6_joinLobby [("1234", lobbyB)] "1234" "c3" "Cyn").2 lobbyB (by decide)).2.1
    (by decide) (by decide)

/-- C7: a lobby returned by leaveLobby always has a nonempty member list
containing its leader; removing the leader of a two-member lobby hands
leadership to the remaining member, and removing the non-leader keeps the
leader unchanged. -/
theorem C7_leaveLobby_leadership (lobbies : Lobbies) (code : String) (lobby : LobbyState)
    (h : lookup lobbies code = some lobby) :
    (∀ clientId store lobby3,
      leaveLobby lobbies code clientId = (store, some lobby3) →
      lobby3.players ≠ [] ∧ lobby3.leaderId ∈ lobby3.players.map (fun p => p.clientId)) ∧
    (∀ p1 p2, lobby.players = [p1, p2] → lobby.leaderId = p1.clientId →
      p2.clientId ≠ p1.clientId →
      ∃ lobby3,
        leaveLobby lobbies code p1.clientId = (updateKV lobbies code lobby3, some lobby3) ∧
        lobby3.players = [p2] ∧ lobby3.leaderId = p2.clientId) ∧
    (∀ p1 p2, lobby.players = [p1, p2] → lobby.leaderId = p1.clientId →
      p2.clientId ≠ p1.clientId →
      ∃ lobby3,
        leaveLobby lobbies code p2.clientId = (updateKV lobbies code lobby3, some lobby3) ∧
        lobby3.players = [p1] ∧ lobby3.leaderId = p1.clientId) := by
  refine ⟨?_, ?_, ?_⟩
  · intro clientId store lobby3 heq
    simp only [leaveLobby, h] at heq
    set remaining := lobby.players.filter (fun p => p.clientId != clientId) with hrem
    by_cases hz : remaining.length = 0
    · rw [if_pos hz] at heq
      have hcon := congrArg (fun r : Lobbies × Option LobbyState => r.2) heq
      simp at hcon
    · rw [if_neg hz] at heq
      by_cases hf : (remaining.find? (fun p => p.clientId == lobby.leaderId)).isSome
      · rw [if_pos hf] at heq
        have h3 : lobby3 = { { lobby with players := remaining } with status := LobbyStatus.OPEN } := by
          have := congrArg (fun r => r.2) heq
          simpa using this.symm
        subst h3
        constructor
        · simpa using List.length_pos.mp (Nat.pos_of_ne_zero hz)
        · rcases Option.isSome_iff_exists.mp hf with ⟨p, hp⟩
          have hpm := List.mem_of_find?_eq_some hp
          have hpe : p.clientId = lobby.leaderId := by
            have := List.find?_some hp
            simpa using this
          simp only [List.mem_map]
          exact ⟨p, hpm, by simp [hpe]⟩
      · rw [if_neg hf] at heq
        have h3 : lobby3 =
            { { { lobby with players := remaining } with
                leaderId := (remaining.headD defaultLobbyPlayer).clientId } with
              status := LobbyStatus.OPEN } := by
          have := congrArg (fun r => r.2) heq
          simpa using this.symm
        subst h3
        have hne : remaining ≠ [] := by
          intro hcon
          exact hz (by simp [hcon])
        constructor
        · simpa using hne
        · simp only [List.mem_map]
          refine ⟨remaining.headD defaultLobbyPlayer, ?_, rfl⟩
          rcases remaining with _ | ⟨a, rest⟩
          · exact absurd rfl hne
          · simp
  · intro p1 p2 hps hl hne
    have hrem : lobby.players.filter (fun p => p.clientId != p1.clientId) = [p2] := by
      simp [hps, hne]
    have hfind : [p2].find? (fun p => p.clientId == lobby.leaderId) = none := by
      rw [List.find?_eq_none]
      intro p hp
      simp only [List.mem_singleton] at hp
      subst hp
      rw [hl]
      simp [hne]
    refine ⟨{ lobby with players := [p2], leaderId := p2.clientId, status := LobbyStatus.OPEN },
      ?_, rfl, rfl⟩
    simp only [leaveLobby, h, hrem]
    rw [if_neg (by simp), hfind]
    rfl
  · intro p1 p2 hps hl hne
    have hrem : lobby.players.filter (fun p => p.clientId != p2.clientId) = [p1] := by
      have hne' : p1.clientId ≠ p2.clientId := fun hcon => hne hcon.symm
      simp [hps, hne']
    have hfind : ([p1].find? (fun p => p.clientId == lobby.leaderId)).isSome := by
      rw [List.find?_isSome]
      exact ⟨p1, by simp, by rw [hl]; simp⟩
    refine ⟨{ lobby with players := [p1], status := LobbyStatus.OPEN }, ?_, rfl, hl⟩
    simp only [leaveLobby, h, hrem]
    rw [if_neg (by simp), if_pos hfind]

/-- C7 witness: in the two-member lobby, removing the leader hands leadership
to the remaining member. -/
theorem C7_leaveLobby_leadership_witness :
    ∃ lobby3,
      leaveLobby [("1234", lobbyB)] "1234" "c1" =
        (updateKV [("1234", lobbyB)] "1234" lobby3, some lobby3) ∧
      lobby3.players = [{ clientId := "c2", name := "Bob", acceptedGame := true }] ∧
      lobby3.leaderId = "c2" :=
  ((C7_leaveLobby_leadership [("1234", lobbyB)] "1234" lobbyB (by decide)).2.1
    { clientId := "c1", name := "Ann", acceptedGame := false }
    { clientId := "c2", name := "Bob", acceptedGame := true }
    (by decide) (by decide) (by decide))

/-- C8: the start-game handler sets the lobby status to STARTING, clears the
acceptance flag of every non-leader, and sets the leader's flag to true. -/
theorem C8_startGame_acceptances (lobby : LobbyState)
    (hmem : ∃ p ∈ lobby.players, p.clientId = lobby.leaderId) :
    (handleStartGameLobby lobby).status = LobbyStatus.STARTING ∧
    (∀ p ∈ (handleStartGameLobby lobby).players,
      p.clientId ≠ lobby.leaderId → p.acceptedGame = false) ∧
    (∃ p ∈ (handleStartGameLobby lobby).players,
      p.clientId = lobby.leaderId ∧ p.acceptedGame = true) := by
  refine ⟨rfl, ?_, ?_⟩
  · intro p hp hne
    simp only [handleStartGameLobby] at hp
    rcases updateFirst_mem hp with hmem' | ⟨a, ha, hpa, rfl⟩
    · rcases List.mem_map.mp hmem' with ⟨q, _, rfl⟩
      rfl
    · exact absurd (by simpa using hpa) hne
  · rcases hmem with ⟨p, hp, hpe⟩
    have hex : ∃ a ∈ lobby.players.map (fun (q : LobbyPlayer) => { q with acceptedGame := false }),
        (fun (q : LobbyPlayer) => q.clientId == lobby.leaderId) a = true := by
      refine ⟨{ p with acceptedGame := false }, List.mem_map.mpr ⟨p, hp, rfl⟩, by simp [hpe]⟩
    rcases updateFirst_hits (f := fun (q : LobbyPlayer) => { q with acceptedGame := true }) hex with
      ⟨a, ha, hpa, hfa⟩
    exact ⟨{ a with acceptedGame := true }, hfa, by simpa using hpa, rfl⟩

theorem lookup_updateKV {α : Type} (m : List (String × α)) (k : String) (v : α) :
    lookup (updateKV m k v) k = (lookup m k).map (fun _ => v) := by
  induction m with
  | nil => rfl
  | cons e rest ih =>
    by_cases hek : e.1 = k
    · simp [lookup, updateKV, List.find?, hek]
    · have hbeq : (e.1 == k) = false := by simp [hek]
      simp only [lookup, updateKV, List.map_cons, List.find?, hek, if_false, hbeq] at ih ⊢
      exact ih

/-- C2: a successful move whose stopping cell carries the exit value finishes
the game with the mover as winner, and once a game is FINISHED every further
handleMove on it fails with GAME_NOT_READY leaving the store unchanged. -/
theorem C2_exit_finishes_and_locks (speedMs now : Nat) (games : Games)
    (code clientId dir : String) (game : GameState)
    (hg : lookup games code = some game) :
    (∀ res games',
      handleMove speedMs now games code clientId dir = (games', .ok res) →
      getCell game.maze.grid res.position = 2 →
      ∃ game2, lookup games' code = some game2 ∧
        game2.phase = GamePhase.FINISHED ∧ game2.winnerId = some clientId) ∧
    (game.phase = GamePhase.FINISHED →
      handleMove speedMs now games code clientId dir = (games, .error .GAME_NOT_READY)) := by
  constructor
  · intro res games' heq hexit
    simp only [handleMove, hg] at heq
    split at heq
    · have hcon := congrArg Prod.snd heq
      simp at hcon
    · split at heq
      · have hcon := congrArg Prod.snd heq
        simp at hcon
      · split at heq
        · have hcon := congrArg Prod.snd heq
          simp at hcon
        · split at heq
          · have hcon := congrArg Prod.snd heq
            simp at hcon
          · rename_i x pos steps hmv
            rw [Prod.mk.injEq] at heq
            obtain ⟨h1, h2⟩ := heq
            cases h2
            subst h1
            have hc : getCell game.maze.grid pos = 2 := hexit
            have hlook : ∀ v : GameState, lookup (updateKV games code v) code = some v := by
              intro v
              rw [lookup_updateKV, hg]
              rfl
            rw [if_pos hc]
            exact ⟨_, hlook _, rfl, rfl⟩
  · intro hfin
    simp only [handleMove, hg]
    rw [if_pos (by simp [hfin])]

/-- C2 witness: on the one-cell maze, moving UP reaches the exit and the
stored game is FINISHED with the mover as winner. -/
theorem C2_exit_finishes_and_locks_witness :
    ∃ game2,
      lookup (handleMove 50 0 [("1234", gameW)] "1234" "c1" "UP").1 "1234" = some game2 ∧
      game2.phase = GamePhase.FINISHED ∧ game2.winnerId = some "c1" :=
  (C2_exit_finishes_and_locks 50 0 [("1234", gameW)] "1234" "c1" "UP" gameW (by decide)).1
    { position := ⟨1, 0⟩, durationMs := 50 }
    (handleMove 50 0 [("1234", gameW)] "1234" "c1" "UP").1 (by decide) (by decide)

theorem handleMove_err (speedMs now : Nat) (games : Games) (code clientId dir : String)
    (e : GameError)
    (h : (handleMove speedMs now games code clientId dir).2 = .error e) :
    handleMove speedMs now games code clientId dir = (games, .error e) := by
  simp only [handleMove] at h ⊢
  cases hl : lookup games code with
  | none => simp only [hl] at h ⊢; cases h; rfl
  | some game =>
    simp only [hl] at h ⊢
    by_cases hp : game.phase ≠ GamePhase.PLAYING
    · rw [if_pos hp] at h ⊢
      cases h
      rfl
    · rw [if_neg hp] at h ⊢
      cases hpl : lookup game.players clientId with
      | none => simp only [hpl] at h ⊢; cases h; rfl
      | some player =>
        simp only [hpl] at h ⊢
        cases hd : parseDirection dir with
        | none => simp only [hd] at h ⊢; cases h; rfl
        | some direction =>
          simp only [hd] at h ⊢
          cases hmv : moveToNextJunction game.maze.grid player.position direction with
          | none => simp only [hmv] at h ⊢; cases h; rfl
          | some pr =>
            obtain ⟨pos, steps⟩ := pr
            simp only [hmv] at h
            cases h

theorem handleMove_snd_now_independent (speedMs now now2 : Nat) (games : Games)
    (code clientId dir : String) :
    (handleMove speedMs now2 games code clientId dir).2 =
      (handleMove speedMs now games code clientId dir).2 := by
  simp only [handleMove]
  cases hl : lookup games code with
  | none => rfl
  | some game =>
    dsimp only
    by_cases hp : game.phase ≠ GamePhase.PLAYING
    · rw [if_pos hp, if_pos hp]
    · rw [if_neg hp, if_neg hp]
      cases hpl : lookup game.players clientId with
      | none => rfl
      | some player =>
        dsimp only
        cases hd : parseDirection dir with
        | none => rfl
        | some direction =>
          dsimp only
          cases hmv : moveToNextJunction game.maze.grid player.position direction with
          | none => rfl
          | some pr =>
            obtain ⟨pos, steps⟩ := pr
            rfl

/-- C3: handleMove is atomic on failure: whenever it reports an error the
store (hence every player's position, targetPosition, movementEndsAt, the
phase and winnerId) is unchanged, and repeating the call from the same state
at any later time fails with the same error, again without mutating. -/
theorem C3_resolveMove_atomic (speedMs now : Nat) (games : Games)
    (code clientId dir : String) (e : GameError)
    (h : (handleMove speedMs now games code clientId dir).2 = .error e) :
    handleMove speedMs now games code clientId dir = (games, .error e) ∧
    (∀ now2 : Nat, handleMove speedMs now2 games code clientId dir = (games, .error e)) := by
  refine ⟨handleMove_err speedMs now games code clientId dir e h, fun now2 => ?_⟩
  refine handleMove_err speedMs now2 games code clientId dir e ?_
  rw [handleMove_snd_now_independent speedMs now now2]
  exact h

/-- C3 witness: moving DOWN into the wall fails with INVALID_MOVE and leaves
the store unchanged, now and at every later time. -/
theorem C3_resolveMove_atomic_witness :
    handleMove 50 0 [("1234", gameW)] "1234" "c1" "DOWN" =
      ([("1234", gameW)], .error .INVALID_MOVE) ∧
    (∀ now2 : Nat, handleMove 50 now2 [("1234", gameW)] "1234" "c1" "DOWN" =
      ([("1234", gameW)], .error .INVALID_MOVE)) :=
  C3_resolveMove_atomic 50 0 [("1234", gameW)] "1234" "c1" "DOWN" .INVALID_MOVE (by decide)

theorem listGetD_set_self {α : Type} (v d : α) :
    ∀ (l : List α) (i : Nat), i < l.length → (l.set i v).getD i d = v := by
  intro l
  induction l with
  | nil =>
    intro i h
    simp at h
  | cons a t ih =>
    intro i h
    cases i with
    | zero => rfl
    | succ j => exact ih j (by simpa using h)

theorem listGetD_set_ne {α : Type} (v d : α) :
    ∀ (l : List α) (i j : Nat), j ≠ i → (l.set i v).getD j d = l.getD j d := by
  intro l
  induction l with
  | nil =>
    intro i j _
    rfl
  | cons a t ih =>
    intro i j h
    cases i with
    | zero =>
      cases j with
      | zero => exact absurd rfl h
      | succ k => rfl
    | succ i' =>
      cases j with
      | zero => rfl
      | succ k => exact ih i' k (fun hc => h (by rw [hc]))

theorem countP_set_eq {α : Type} (P : α → Bool) (v d : α) :
    ∀ (l : List α) (i : Nat), i < l.length →
    (l.set i v).countP P + (if P (l.getD i d) = true then 1 else 0) =
      l.countP P + (if P v = true then 1 else 0) := by
  intro l
  induction l with
  | nil =>
    intro i h
    simp at h
  | cons a t ih =>
    intro i h
    cases i with
    | zero =>
      simp only [List.set, List.countP_cons, List.getD_cons_zero]
      omega
    | succ j =>
      simp only [List.set, List.countP_cons, List.getD_cons_succ]
      have hj := ih j (by simpa using h)
      omega

theorem sum_map_set_eq {α : Type} (f : α → Nat) (d : α) :
    ∀ (l : List α) (i : Nat) (r : α), i < l.length →
    ((l.set i r).map f).sum + f (l.getD i d) = (l.map f).sum + f r := by
  intro l
  induction l with
  | nil =>
    intro i r h
    simp at h
  | cons a t ih =>
    intro i r h
    cases i with
    | zero =>
      simp only [List.set, List.map_cons, List.sum_cons, List.getD_cons_zero]
      omega
    | succ j =>
      simp only [List.set, List.map_cons, List.sum_cons, List.getD_cons_succ]
      have hj := ih j r (by simpa using h)
      omega

theorem rectGrid_row {g : MazeGrid} {W H : Nat} (hrect : rectGrid g W H) {i : Nat}
    (hi : i < H) : (g.getD i []).length = W := by
  obtain ⟨hlen, hrow⟩ := hrect
  have hi' : i < g.length := by omega
  refine hrow _ ?_
  rw [List.getD_eq_getElem?_getD, List.getElem?_eq_getElem hi']
  exact List.getElem_mem hi'

theorem getCell_setCell_self {g : MazeGrid} {W H : Nat} (hrect : rectGrid g W H)
    {p : Position} (hx0 : 0 ≤ p.x) (hxW : p.x < (W : Int)) (hy0 : 0 ≤ p.y)
    (hyH : p.y < (H : Int)) (v : Nat) : getCell (setCell g p v) p = v := by
  have hyH' : p.y.toNat < H := by omega
  have hxW' : p.x.toNat < W := by omega
  have hylen : p.y.toNat < g.length := by
    obtain ⟨hlen, _⟩ := hrect
    omega
  have hxlen : p.x.toNat < (g.getD p.y.toNat []).length := by
    rw [rectGrid_row hrect hyH']
    exact hxW'
  rw [setCell, if_pos ⟨hx0, hy0⟩, getCell, if_pos ⟨hx0, hy0⟩]
  rw [listGetD_set_self _ _ g _ hylen, listGetD_set_self _ _ _ _ hxlen]

theorem getCell_setCell_ne (g : MazeGrid) (p q : Position) (v : Nat) (hne : q ≠ p) :
    getCell (setCell g p v) q = getCell g q := by
  rw [setCell]
  split
  · rename_i hp
    rw [getCell, getCell]
    split
    · rename_i hq
      by_cases hyy : q.y = p.y
      · have hxx : q.x ≠ p.x := by
          intro hc
          exact hne (by cases p; cases q; simp_all)
        by_cases hylen : p.y.toNat < g.length
        · rw [hyy, listGetD_set_self _ _ g _ hylen]
          exact listGetD_set_ne _ _ _ _ _ (by omega)
        · rw [List.set_eq_of_length_le (by omega)]
      · have hyn : q.y.toNat ≠ p.y.toNat := by omega
        rw [listGetD_set_ne _ _ g _ _ hyn]
    · rfl
  · rfl

theorem rectGrid_setCell {g : MazeGrid} {W H : Nat} (hrect : rectGrid g W H)
    {p : Position} (hx0 : 0 ≤ p.x) (hxW : p.x < (W : Int)) (hy0 : 0 ≤ p.y)
    (hyH : p.y < (H : Int)) (v : Nat) : rectGrid (setCell g p v) W H := by
  obtain ⟨hlen, hrow⟩ := hrect
  have hyH' : p.y.toNat < H := by omega
  rw [setCell, if_pos ⟨hx0, hy0⟩]
  constructor
  · simpa using hlen
  · intro row hmem
    rcases List.mem_or_eq_of_mem_set hmem with hm | rfl
    · exact hrow _ hm
    · rw [List.length_set]
      exact rectGrid_row ⟨hlen, hrow⟩ hyH'

theorem walkableAt_setCell {g : MazeGrid} {W H : Nat} (hrect : rectGrid g W H)
    {p : Position} (hx0 : 0 ≤ p.x) (hxW : p.x < (W : Int)) (hy0 : 0 ≤ p.y)
    (hyH : p.y < (H : Int)) {v : Nat} (hv : v = 1 ∨ v = 2) (q : Position) :
    walkableAt (setCell g p v) q ↔ (walkableAt g q ∨ q = p) := by
  by_cases hq : q = p
  · subst hq
    unfold walkableAt
    rw [getCell_setCell_self hrect hx0 hxW hy0 hyH]
    constructor
    · intro _
      exact Or.inr rfl
    · intro _
      exact hv
  · unfold walkableAt
    rw [getCell_setCell_ne g p q v hq]
    constructor
    · intro h
      exact Or.inl h
    · intro h
      rcases h with h | h
      · exact h
      · exact absurd h hq

theorem zeroCount_setCell {g : MazeGrid} {W H : Nat} (hrect : rectGrid g W H)
    {p : Position} (hx0 : 0 ≤ p.x) (hxW : p.x < (W : Int)) (hy0 : 0 ≤ p.y)
    (hyH : p.y < (H : Int)) (v : Nat) :
    zeroCount (setCell g p v) + (if getCell g p = 0 then 1 else 0) =
      zeroCount g + (if v = 0 then 1 else 0) := by
  have hyH' : p.y.toNat < H := by omega
  have hxW' : p.x.toNat < W := by omega
  have hylen : p.y.toNat < g.length := by
    obtain ⟨hlen, _⟩ := hrect
    omega
  have hxlen : p.x.toNat < (g.getD p.y.toNat []).length := by
    rw [rectGrid_row hrect hyH']
    exact hxW'
  have hcell : getCell g p = (g.getD p.y.toNat []).getD p.x.toNat 0 := by
    rw [getCell, if_pos ⟨hx0, hy0⟩]
  rw [zeroCount, setCell, if_pos ⟨hx0, hy0⟩]
  have hsum := sum_map_set_eq (fun row => row.countP (fun w => w == 0)) [] g p.y.toNat
    ((g.getD p.y.toNat []).set p.x.toNat v) hylen
  have hcnt := countP_set_eq (fun w => w == 0) v 0 (g.getD p.y.toNat []) p.x.toNat hxlen
  rw [hcell]
  simp only [beq_iff_eq] at hsum hcnt
  simp only [zeroCount]
  omega

theorem zeroCount_le_aux {W : Nat} :
    ∀ (g : MazeGrid), (∀ row ∈ g, row.length = W) → zeroCount g ≤ g.length * W := by
  intro g
  induction g with
  | nil =>
    intro _
    simp [zeroCount]
  | cons row t ih =>
    intro hrow
    simp only [zeroCount, List.map_cons, List.sum_cons, List.length_cons]
    have h1 : row.countP (fun v => v == 0) ≤ W := by
      rw [← hrow row (by simp)]
      exact List.countP_le_length _
    have h2 := ih (fun r hr => hrow r (by simp [hr]))
    simp only [zeroCount] at h2
    have h3 : (t.length + 1) * W = t.length * W + W := by ring
    omega

theorem zeroCount_le {g : MazeGrid} {W H : Nat} (hrect : rectGrid g W H) :
    zeroCount g ≤ H * W := by
  obtain ⟨hlen, hrow⟩ := hrect
  have := zeroCount_le_aux g hrow
  rw [hlen] at this
  exact this

theorem adjacent_symm {p q : Position} (h : adjacent p q) : adjacent q p := by
  unfold adjacent at *
  omega

theorem listSwap_mem {α : Type} {l : List α} {i j : Nat} {x : α}
    (h : x ∈ listSwap l i j) : x ∈ l := by
  rw [listSwap] at h
  split at h
  · rename_i a b ha hb
    rcases List.mem_or_eq_of_mem_set h with h1 | rfl
    · rcases List.mem_or_eq_of_mem_set h1 with h2 | rfl
      · exact h2
      · exact List.get?_mem hb
    · exact List.get?_mem ha
  · exact h

theorem shuffleAux_mem {α : Type} :
    ∀ (k : Nat) (l : List α) (rng : List Nat) (x : α),
      x ∈ (shuffleAux k l rng).1 → x ∈ l := by
  intro k
  induction k with
  | zero =>
    intro l rng x h
    exact h
  | succ i ih =>
    intro l rng x h
    rw [shuffleAux] at h
    exact listSwap_mem (ih _ _ _ h)

theorem shuffle_mem {α : Type} {input : List α} {rng : List Nat} {x : α}
    (h : x ∈ (shuffle input rng).1) : x ∈ input :=
  shuffleAux_mem _ _ _ _ h

theorem mem_of_getLast?_eq {α : Type} {l : List α} {a : α} (h : l.getLast? = some a) :
    a ∈ l := by
  rw [List.getLast?_eq_getElem?] at h
  exact List.getElem?_mem h

theorem walkPath_reverse {g : MazeGrid} {a b : Position} {l : List Position}
    (h : WalkPath g a b l) : WalkPath g b a l.reverse := by
  obtain ⟨hhead, hlast, hnodup, hmem, hchain⟩ := h
  refine ⟨?_, ?_, ?_, ?_, ?_⟩
  · rw [List.head?_reverse]
    exact hlast
  · rw [List.getLast?_reverse]
    exact hhead
  · exact List.nodup_reverse.mpr hnodup
  · intro p hp
    exact hmem p (List.mem_reverse.mp hp)
  · rw [List.chain'_reverse]
    exact List.Chain'.imp (fun x y hxy => adjacent_symm hxy) hchain

theorem walkPath_self {g : MazeGrid} {a : Position} {l : List Position}
    (h : WalkPath g a a l) : l = [a] := by
  obtain ⟨hhead, hlast, hnodup, _, _⟩ := h
  cases l with
  | nil => cases hhead
  | cons w t =>
    have hw : a = w := by simpa using hhead.symm
    subst hw
    cases t with
    | nil => rfl
    | cons c t' =>
      exfalso
      rw [List.getLast?_cons_cons] at hlast
      have hmem : a ∈ c :: t' := mem_of_getLast?_eq hlast
      rw [List.nodup_cons] at hnodup
      exact hnodup.1 hmem

theorem walkPath_singleton {g : MazeGrid} {a : Position} (hw : walkableAt g a) :
    WalkPath g a a [a] :=
  ⟨rfl, rfl, by simp, by simpa using hw, by simp⟩

theorem walkPath_mono {g g' : MazeGrid}
    (hmono : ∀ p, walkableAt g p → walkableAt g' p)
    {a b : Position} {l : List Position} (h : WalkPath g a b l) : WalkPath g' a b l := by
  obtain ⟨hhead, hlast, hnodup, hmem, hchain⟩ := h
  exact ⟨hhead, hlast, hnodup, fun p hp => hmono p (hmem p hp), hchain⟩

theorem walkPath_avoid {g g' : MazeGrid} {v : Position}
    (hwalk : ∀ p, walkableAt g' p ↔ (walkableAt g p ∨ p = v))
    {a b : Position} {l : List Position} (h : WalkPath g' a b l) (hv : v ∉ l) :
    WalkPath g a b l := by
  obtain ⟨hhead, hlast, hnodup, hmem, hchain⟩ := h
  refine ⟨hhead, hlast, hnodup, ?_, hchain⟩
  intro p hp
  rcases (hwalk p).mp (hmem p hp) with h1 | rfl
  · exact h1
  · exact absurd hp hv

/-- A cell with a single walkable neighbor cannot lie strictly inside a
simple path between two other cells. -/
theorem walkPath_not_through {g g' : MazeGrid} {v u : Position}
    (hwalk : ∀ p, walkableAt g' p ↔ (walkableAt g p ∨ p = v))
    (honly : ∀ q, adjacent q v → walkableAt g q → q = u)
    {a b : Position} {l : List Position}
    (hpath : WalkPath g' a b l) (ha : a ≠ v) (hb : b ≠ v) : v ∉ l := by
  obtain ⟨hhead, hlast, hnodup, hmem, hchain⟩ := hpath
  intro hv
  obtain ⟨l1, l2, rfl⟩ := List.append_of_mem hv
  rw [List.nodup_append] at hnodup
  obtain ⟨hnd1, hnd2, hdisj⟩ := hnodup
  have hvl1 : v ∉ l1 := fun hc => (hdisj hc) (by simp)
  rw [List.nodup_cons] at hnd2
  have hvl2 : v ∉ l2 := hnd2.1
  rw [List.chain'_append] at hchain
  obtain ⟨hch1, hch2, hlink⟩ := hchain
  -- l1 is nonempty, else a = v
  cases l1 with
  | nil =>
    exact ha (by simpa using hhead.symm)
  | cons a0 t1 =>
    -- l2 is nonempty, else b = v
    cases l2 with
    | nil =>
      apply hb
      have : ((a0 :: t1) ++ [v]).getLast? = some v := by
        rw [List.getLast?_append]
        rfl
      rw [this] at hlast
      exact (Option.some_injective _ hlast).symm
    | cons c0 t2 =>
      -- previous neighbor of v
      obtain ⟨prev, hprev⟩ : ∃ prev, (a0 :: t1).getLast? = some prev :=
        ⟨(a0 :: t1).getLast (by simp), List.getLast?_eq_getLast_of_ne_nil (by simp)⟩
      have hprevmem : prev ∈ a0 :: t1 := mem_of_getLast?_eq hprev
      have hprevadj : adjacent prev v := by
        have := hlink prev (by rw [hprev]; rfl) v rfl
        exact this
      have hprevne : prev ≠ v := fun hc => hvl1 (hc ▸ hprevmem)
      have hprevwalk : walkableAt g prev := by
        rcases (hwalk prev).mp (hmem prev (List.mem_append_left _ hprevmem)) with h1 | h1
        · exact h1
        · exact absurd h1 hprevne
      have hprevu : prev = u := honly prev hprevadj hprevwalk
      -- next neighbor of v
      have hnextadj : adjacent v c0 := by
        have := List.chain'_cons.mp hch2
        exact this.1
      have hnextne : c0 ≠ v := fun hc => hvl2 (by simp [← hc])
      have hnextwalk : walkableAt g c0 := by
        rcases (hwalk c0).mp (hmem c0 (List.mem_append_right _ (by simp))) with h1 | h1
        · exact h1
        · exact absurd h1 hnextne
      have hnextu : c0 = u := honly c0 (adjacent_symm hnextadj) hnextwalk
      -- but prev and c0 live in disjoint parts
      have hu1 : u ∈ a0 :: t1 := by
        rw [← hprevu]
        exact hprevmem
      have hu2 : u ∈ v :: c0 :: t2 := by
        rw [← hnextu]
        simp
      exact hdisj hu1 hu2

/-- Adding a fresh leaf cell v attached to the unique walkable neighbor u
preserves the unique-simple-path property. -/
theorem perfect_extend_leaf {g g' : MazeGrid} {v u : Position}
    (hwalk : ∀ p, walkableAt g' p ↔ (walkableAt g p ∨ p = v))
    (hnv : ¬ walkableAt g v)
    (hu : walkableAt g u) (huv : adjacent u v)
    (honly : ∀ q, adjacent q v → walkableAt g q → q = u)
    (hperf : PerfectOn g) : PerfectOn g' := by
  have hmono : ∀ p, walkableAt g p → walkableAt g' p := fun p hp => (hwalk p).mpr (Or.inl hp)
  have hv' : walkableAt g' v := (hwalk v).mpr (Or.inr rfl)
  have hane : ∀ c, walkableAt g c → c ≠ v := fun c hc hcv => hnv (hcv ▸ hc)
  have key : ∀ c, walkableAt g c → ∃! l, WalkPath g' v c l := by
    intro c hc
    obtain ⟨m, hm, hmuniq⟩ := hperf u c hu hc
    have hvnotm : v ∉ m := fun hvm => hnv (hm.2.2.2.1 v hvm)
    obtain ⟨hh, hl, hn, hw, hch⟩ := hm
    cases m with
    | nil => cases hh
    | cons w m0 =>
      have hwu : u = w := by simpa using hh.symm
      subst hwu
      refine ⟨v :: u :: m0, ⟨rfl, ?_, ?_, ?_, ?_⟩, ?_⟩
      · rw [List.getLast?_cons_cons]
        exact hl
      · rw [List.nodup_cons]
        exact ⟨hvnotm, hn⟩
      · intro p hp
        rcases List.mem_cons.mp hp with rfl | hp'
        · exact hv'
        · exact hmono p (hw p hp')
      · rw [List.chain'_cons]
        exact ⟨adjacent_symm huv, hch⟩
      · intro l' hl'
        obtain ⟨hh', hlast', hnodup', hmem', hchain'⟩ := hl'
        cases l' with
        | nil => cases hh'
        | cons w t =>
          have hwv : v = w := by simpa using hh'.symm
          subst hwv
          cases t with
          | nil =>
            exfalso
            have hcv : c = v := by simpa using hlast'.symm
            exact hane c hc hcv
          | cons c0 t' =>
            have hadj : adjacent v c0 := (List.chain'_cons.mp hchain').1
            rw [List.nodup_cons] at hnodup'
            have hc0ne : c0 ≠ v := fun hcc => hnodup'.1 (by simp [← hcc])
            have hc0walk : walkableAt g c0 := by
              rcases (hwalk c0).mp (hmem' c0 (by simp)) with h1 | h1
              · exact h1
              · exact absurd h1 hc0ne
            have hc0u : u = c0 := (honly c0 (adjacent_symm hadj) hc0walk).symm
            subst hc0u
            have hpath' : WalkPath g u c (u :: t') := by
              refine walkPath_avoid hwalk ⟨rfl, ?_, hnodup'.2, ?_, ?_⟩ hnodup'.1
              · rw [List.getLast?_cons_cons] at hlast'
                exact hlast'
              · intro p hp
                exact hmem' p (List.mem_cons_of_mem _ hp)
              · exact (List.chain'_cons.mp hchain').2
            have := hmuniq (u :: t') hpath'
            rw [this]
  intro a b ha' hb'
  rcases (hwalk a).mp ha' with ha | rfl
  · rcases (hwalk b).mp hb' with hb | rfl
    · obtain ⟨m, hm, hmuniq⟩ := hperf a b ha hb
      refine ⟨m, walkPath_mono hmono hm, ?_⟩
      intro l' hl'
      have hvl' : v ∉ l' :=
        walkPath_not_through hwalk honly hl' (hane a ha) (hane b hb)
      exact hmuniq l' (walkPath_avoid hwalk hl' hvl')
    · obtain ⟨m, hm, hmuniq⟩ := key a ha
      refine ⟨m.reverse, walkPath_reverse hm, ?_⟩
      intro l' hl'
      have := hmuniq l'.reverse (walkPath_reverse hl')
      rw [← List.reverse_reverse l', this]
  · rcases (hwalk b).mp hb' with hb | rfl
    · exact key b hb
    · exact ⟨_, walkPath_singleton hv', fun l hl => walkPath_self hl⟩

/-- Adding the first walkable cell to an all-wall grid yields the
unique-simple-path property. -/
theorem perfect_extend_isolated {g g' : MazeGrid} {v : Position}
    (hwalk : ∀ p, walkableAt g' p ↔ (walkableAt g p ∨ p = v))
    (hempty : ∀ p, ¬ walkableAt g p) : PerfectOn g' := by
  have hv' : walkableAt g' v := (hwalk v).mpr (Or.inr rfl)
  intro a b ha hb
  have hav : a = v := by
    rcases (hwalk a).mp ha with h | rfl
    · exact absurd h (hempty a)
    · rfl
  have hbv : b = v := by
    rcases (hwalk b).mp hb with h | rfl
    · exact absurd h (hempty b)
    · rfl
  rw [hav, hbv]
  exact ⟨[v], walkPath_singleton hv', fun l hl => walkPath_self hl⟩

theorem not_walkableAt_of_zero {g : MazeGrid} {p : Position} (h : getCell g p = 0) :
    ¬ walkableAt g p := by
  intro hc
  rcases hc with h1 | h1 <;> omega

theorem mem_DIRECTIONS_cases {d : Position} (h : d ∈ DIRECTIONS) :
    d = ⟨0, -2⟩ ∨ d = ⟨2, 0⟩ ∨ d = ⟨0, 2⟩ ∨ d = ⟨-2, 0⟩ := by
  simpa [DIRECTIONS] using h

theorem inInterior_bounds {W H : Nat} {p : Position} (h : inInterior W H p) :
    0 ≤ p.x ∧ p.x < (W : Int) ∧ 0 ≤ p.y ∧ p.y < (H : Int) := by
  obtain ⟨h1, h2, h3, h4⟩ := h
  omega

theorem gridHeight_rect {g : MazeGrid} {W H : Nat} (hrect : rectGrid g W H) :
    gridHeight g = H := hrect.1

theorem gridWidth_rect {g : MazeGrid} {W H : Nat} (hrect : rectGrid g W H)
    (hH : 1 ≤ H) : gridWidth g = W := by
  obtain ⟨hlen, hrow⟩ := hrect
  cases g with
  | nil =>
    simp only [List.length_nil] at hlen
    omega
  | cons r t => exact hrow r (by simp)

set_option maxHeartbeats 1600000 in
/-- Carving the wall between the current lattice cell (x,y) and the uncarved
lattice neighbor (x+d.x, y+d.y) re-establishes the carve precondition at the
neighbor, removes exactly one zero cell, and only grows walkability. -/
theorem carve_step_pre {W H : Nat} {grid : MazeGrid} {x y : Int} {d : Position}
    (hinv : CarveInv W H grid) (hd : d ∈ DIRECTIONS)
    (hlat : latticeCell ⟨x, y⟩) (hint : inInterior W H ⟨x, y⟩)
    (hwc : walkableAt grid ⟨x, y⟩)
    (hnin : inInterior W H ⟨x + d.x, y + d.y⟩)
    (hn0 : getCell grid ⟨x + d.x, y + d.y⟩ = 0) :
    CarvePre W H (setCell grid ⟨x + d.x / 2, y + d.y / 2⟩ 1) ⟨x + d.x, y + d.y⟩ ∧
    zeroCount (setCell grid ⟨x + d.x / 2, y + d.y / 2⟩ 1) + 1 = zeroCount grid ∧
    (∀ p, walkableAt grid p → walkableAt (setCell grid ⟨x + d.x / 2, y + d.y / 2⟩ 1) p) := by
  obtain ⟨hlx, hly⟩ := hlat
  simp only at hlx hly
  have hshape : (d.x = 0 ∧ (d.y = 2 ∨ d.y = -2)) ∨ (d.y = 0 ∧ (d.x = 2 ∨ d.x = -2)) := by
    rcases mem_DIRECTIONS_cases hd with rfl | rfl | rfl | rfl <;> simp
  obtain ⟨hix1, hix2, hiy1, hiy2⟩ := hint
  obtain ⟨hnx1, hnx2, hny1, hny2⟩ := hnin
  simp only at hix1 hix2 hiy1 hiy2 hnx1 hnx2 hny1 hny2
  have hwint : inInterior W H ⟨x + d.x / 2, y + d.y / 2⟩ := by
    refine ⟨?_, ?_, ?_, ?_⟩ <;> simp only <;> omega
  have hwb := inInterior_bounds hwint
  have hchar : ∀ q, walkableAt (setCell grid ⟨x + d.x / 2, y + d.y / 2⟩ 1) q ↔
      (walkableAt grid q ∨ q = ⟨x + d.x / 2, y + d.y / 2⟩) :=
    walkableAt_setCell hinv.rect hwb.1 hwb.2.1 hwb.2.2.1 hwb.2.2.2 (Or.inl rfl)
  have hmono : ∀ p, walkableAt grid p →
      walkableAt (setCell grid ⟨x + d.x / 2, y + d.y / 2⟩ 1) p :=
    fun p hp => (hchar p).mpr (Or.inl hp)
  have hwlat : ¬ latticeCell ⟨x + d.x / 2, y + d.y / 2⟩ := by
    intro hc
    obtain ⟨h1, h2⟩ := hc
    simp only at h1 h2
    omega
  have hadj_nw : adjacent ⟨x + d.x, y + d.y⟩ ⟨x + d.x / 2, y + d.y / 2⟩ := by
    unfold adjacent
    simp only
    omega
  have hlat_n : latticeCell ⟨x + d.x, y + d.y⟩ := by
    constructor <;> simp only <;> omega
  have hnw : ¬ walkableAt grid ⟨x + d.x / 2, y + d.y / 2⟩ := by
    intro hc
    rcases hinv.conn _ hc hwlat _ hadj_nw hlat_n with h1 | h1
    · exact not_walkableAt_of_zero hn0 h1
    · cases h1
  have hw0 : getCell grid ⟨x + d.x / 2, y + d.y / 2⟩ = 0 := by
    rcases hinv.vals ⟨x + d.x / 2, y + d.y / 2⟩ with h1 | h1
    · exact h1
    · exact absurd (Or.inl h1) hnw
  have hadj_cw : adjacent ⟨x, y⟩ ⟨x + d.x / 2, y + d.y / 2⟩ := by
    unfold adjacent
    simp only
    omega
  have honly : ∀ q, adjacent q ⟨x + d.x / 2, y + d.y / 2⟩ → walkableAt grid q →
      q = ⟨x, y⟩ := by
    intro q hadj hq
    have hqnee := hinv.noEE q hq
    obtain ⟨qx, qy⟩ := q
    unfold adjacent at hadj
    simp only at hadj
    unfold evenEven at hqnee
    simp only [not_and] at hqnee
    have hqcases : (qx = x ∧ qy = y) ∨ (qx = x + d.x ∧ qy = y + d.y) := by
      by_cases hex : qx % 2 = 0
      · have := hqnee hex
        omega
      · omega
    rcases hqcases with ⟨h1, h2⟩ | ⟨h1, h2⟩
    · simp [h1, h2]
    · exfalso
      apply not_walkableAt_of_zero hn0
      have : (⟨qx, qy⟩ : Position) = ⟨x + d.x, y + d.y⟩ := by simp [h1, h2]
      rw [← this]
      exact hq
  have hne_nw : (⟨x + d.x, y + d.y⟩ : Position) ≠ ⟨x + d.x / 2, y + d.y / 2⟩ := by
    simp only [ne_eq, Position.mk.injEq, not_and]
    intro h1
    omega
  refine ⟨⟨?_, ?_, ?_, ?_, ?_, ?_, hlat_n, ⟨hnx1, hnx2, hny1, hny2⟩, ?_, ?_⟩, ?_, hmono⟩
  · exact rectGrid_setCell hinv.rect hwb.1 hwb.2.1 hwb.2.2.1 hwb.2.2.2 1
  · intro p
    by_cases hpw : p = ⟨x + d.x / 2, y + d.y / 2⟩
    · subst hpw
      right
      exact getCell_setCell_self hinv.rect hwb.1 hwb.2.1 hwb.2.2.1 hwb.2.2.2 1
    · rw [getCell_setCell_ne _ _ _ _ hpw]
      exact hinv.vals p
  · intro p hp
    rcases (hchar p).mp hp with h1 | rfl
    · exact hinv.interior p h1
    · exact hwint
  · intro p hp
    rcases (hchar p).mp hp with h1 | rfl
    · exact hinv.noEE p h1
    · intro hc
      obtain ⟨h1, h2⟩ := hc
      simp only at h1 h2
      omega
  · intro p hp hplat q hadj hqlat
    by_cases hpw : p = ⟨x + d.x / 2, y + d.y / 2⟩
    · subst hpw
      obtain ⟨qx, qy⟩ := q
      obtain ⟨hq1, hq2⟩ := hqlat
      simp only at hq1 hq2
      unfold adjacent at hadj
      simp only at hadj
      have hqcases : (qx = x ∧ qy = y) ∨ (qx = x + d.x ∧ qy = y + d.y) := by omega
      rcases hqcases with ⟨h1, h2⟩ | ⟨h1, h2⟩
      · left
        have : (⟨qx, qy⟩ : Position) = ⟨x, y⟩ := by simp [h1, h2]
        rw [this]
        exact hmono _ hwc
      · right
        simp [h1, h2]
    · have hpg : walkableAt grid p := by
        rcases (hchar p).mp hp with h1 | h1
        · exact h1
        · exact absurd h1 hpw
      rcases hinv.conn p hpg hplat q hadj hqlat with h1 | h1
      · exact Or.inl (hmono q h1)
      · cases h1
  · exact perfect_extend_leaf hchar hnw hwc hadj_cw honly hinv.perfect
  · rw [getCell_setCell_ne _ _ _ _ hne_nw]
    exact hn0
  · right
    refine ⟨⟨x + d.x / 2, y + d.y / 2⟩, adjacent_symm hadj_nw, (hchar _).mpr (Or.inr rfl), ?_⟩
    intro q hadjq hq
    by_cases hqw : q = ⟨x + d.x / 2, y + d.y / 2⟩
    · exact hqw
    · exfalso
      have hqg : walkableAt grid q := by
        rcases (hchar q).mp hq with h1 | h1
        · exact h1
        · exact absurd h1 hqw
      have hqnlat : ¬ latticeCell q := by
        intro hc
        obtain ⟨qx, qy⟩ := q
        obtain ⟨hc1, hc2⟩ := hc
        simp only at hc1 hc2
        unfold adjacent at hadjq
        simp only at hadjq
        omega
      have hadj_nq : adjacent ⟨x + d.x, y + d.y⟩ q := adjacent_symm hadjq
      rcases hinv.conn q hqg hqnlat _ hadj_nq hlat_n with h1 | h1
      · exact not_walkableAt_of_zero hn0 h1
      · cases h1
  · have hz := zeroCount_setCell hinv.rect hwb.1 hwb.2.1 hwb.2.2.1 hwb.2.2.2 1
    rw [hw0] at hz
    simpa using hz

set_option maxHeartbeats 1600000 in
/-- The carver, run with enough fuel on a valid target, established the full
invariant with the target carved: the walkable region stays a perfect maze
throughout the recursion. -/
theorem carve_spec (W H : Nat) :
    ∀ (fuel : Nat) (g : MazeGrid) (x y : Int) (rng : List Nat),
      CarvePre W H g ⟨x, y⟩ → zeroCount g < fuel →
      CarvePost W H g (carveMazeF fuel g x y rng).1 ⟨x, y⟩ := by
  intro fuel
  induction fuel with
  | zero =>
    intro g x y rng hpre hfuel
    omega
  | succ fuel ih =>
    intro g x y rng hpre hfuel
    obtain ⟨hrect, hvals, hint, hnee, hconn, hperf, hlat, htint, ht0, hnbr⟩ := hpre
    have htb := inInterior_bounds htint
    have hchar : ∀ q, walkableAt (setCell g ⟨x, y⟩ 1) q ↔ (walkableAt g q ∨ q = ⟨x, y⟩) :=
      walkableAt_setCell hrect htb.1 htb.2.1 htb.2.2.1 htb.2.2.2 (Or.inl rfl)
    have hmono1 : ∀ p, walkableAt g p → walkableAt (setCell g ⟨x, y⟩ 1) p :=
      fun p hp => (hchar p).mpr (Or.inl hp)
    have hwt : walkableAt (setCell g ⟨x, y⟩ 1) ⟨x, y⟩ := (hchar _).mpr (Or.inr rfl)
    have hz1 : zeroCount (setCell g ⟨x, y⟩ 1) + 1 = zeroCount g := by
      have hz := zeroCount_setCell hrect htb.1 htb.2.1 htb.2.2.1 htb.2.2.2 1
      rw [ht0] at hz
      simpa using hz
    have hinv1 : CarveInv W H (setCell g ⟨x, y⟩ 1) := by
      refine ⟨rectGrid_setCell hrect htb.1 htb.2.1 htb.2.2.1 htb.2.2.2 1, ?_, ?_, ?_, ?_, ?_⟩
      · intro p
        by_cases hpt : p = ⟨x, y⟩
        · subst hpt
          right
          exact getCell_setCell_self hrect htb.1 htb.2.1 htb.2.2.1 htb.2.2.2 1
        · rw [getCell_setCell_ne _ _ _ _ hpt]
          exact hvals p
      · intro p hp
        rcases (hchar p).mp hp with h1 | rfl
        · exact hint p h1
        · exact htint
      · intro p hp
        rcases (hchar p).mp hp with h1 | rfl
        · exact hnee p h1
        · intro hc
          obtain ⟨h1, h2⟩ := hc
          obtain ⟨hl1, hl2⟩ := hlat
          simp only at h1 h2 hl1 hl2
          omega
      · intro p hp hplat q hadj hqlat
        have hpt : p ≠ ⟨x, y⟩ := fun hc => hplat (hc ▸ hlat)
        have hpg : walkableAt g p := by
          rcases (hchar p).mp hp with h1 | h1
          · exact h1
          · exact absurd h1 hpt
        rcases hconn p hpg hplat q hadj hqlat with h1 | h1
        · exact Or.inl (hmono1 q h1)
        · left
          have hqt : q = ⟨x, y⟩ := Option.some_injective _ h1
          rw [hqt]
          exact hwt
      · rcases hnbr with hempty | ⟨u, huadj, huw, huniq⟩
        · exact perfect_extend_isolated hchar hempty
        · exact perfect_extend_leaf hchar (not_walkableAt_of_zero ht0) huw huadj huniq hperf
    have hH1 : 1 ≤ H := by
      obtain ⟨_, _, h3, h4⟩ := htint
      simp only at h3 h4
      omega
    have hfold : ∀ (dirs : List Position), (∀ e ∈ dirs, e ∈ DIRECTIONS) →
        ∀ (acc : MazeGrid × List Nat),
          CarveInv W H acc.1 → walkableAt acc.1 ⟨x, y⟩ →
          (∀ p, walkableAt (setCell g ⟨x, y⟩ 1) p → walkableAt acc.1 p) →
          zeroCount acc.1 ≤ zeroCount (setCell g ⟨x, y⟩ 1) →
          CarveInv W H (List.foldl (carveStep (carveMazeF fuel) x y) acc dirs).1 ∧
          walkableAt (List.foldl (carveStep (carveMazeF fuel) x y) acc dirs).1 ⟨x, y⟩ ∧
          (∀ p, walkableAt (setCell g ⟨x, y⟩ 1) p →
            walkableAt (List.foldl (carveStep (carveMazeF fuel) x y) acc dirs).1 p) ∧
          zeroCount (List.foldl (carveStep (carveMazeF fuel) x y) acc dirs).1 ≤
            zeroCount (setCell g ⟨x, y⟩ 1) := by
      intro dirs
      induction dirs with
      | nil =>
        intro _ acc h1 h2 h3 h4
        exact ⟨h1, h2, h3, h4⟩
      | cons d rest ihd =>
        intro hdm acc hinv hwxy hmn hzc
        rw [List.foldl_cons]
        have hstep : CarveInv W H (carveStep (carveMazeF fuel) x y acc d).1 ∧
            walkableAt (carveStep (carveMazeF fuel) x y acc d).1 ⟨x, y⟩ ∧
            (∀ p, walkableAt acc.1 p →
              walkableAt (carveStep (carveMazeF fuel) x y acc d).1 p) ∧
            zeroCount (carveStep (carveMazeF fuel) x y acc d).1 ≤ zeroCount acc.1 := by
          rw [carveStep]
          split
          · exact ⟨hinv, hwxy, fun p hp => hp, le_refl _⟩
          · rename_i hbnd
            split
            · exact ⟨hinv, hwxy, fun p hp => hp, le_refl _⟩
            · rename_i hnz
              have hn0' : getCell acc.1 ⟨x + d.x, y + d.y⟩ = 0 := by
                push_neg at hnz
                exact hnz
              have hnin : inInterior W H ⟨x + d.x, y + d.y⟩ := by
                push_neg at hbnd
                obtain ⟨hb1, hb2, hb3, hb4⟩ := hbnd
                rw [gridHeight_rect hinv.rect] at hb2
                rw [gridWidth_rect hinv.rect hH1] at hb4
                exact ⟨by simp only; omega, by simp only; omega,
                  by simp only; omega, by simp only; omega⟩
              obtain ⟨hpre2, hz2, hmono2⟩ :=
                carve_step_pre hinv (hdm d (by simp)) hlat htint hwxy hnin hn0'
              have hzlt : zeroCount (setCell acc.1 ⟨x + d.x / 2, y + d.y / 2⟩ 1) < fuel := by
                omega
              obtain ⟨hinv3, hwn3, hmono3, hz3⟩ :=
                ih (setCell acc.1 ⟨x + d.x / 2, y + d.y / 2⟩ 1) (x + d.x) (y + d.y) acc.2
                  hpre2 hzlt
              refine ⟨hinv3, hmono3 _ (hmono2 _ hwxy), ?_, ?_⟩
              · intro p hp
                exact hmono3 _ (hmono2 _ hp)
              · exact le_trans hz3 (by omega)
        obtain ⟨h1, h2, h3, h4⟩ := hstep
        exact ihd (fun e he => hdm e (by simp [he])) _ h1 h2
          (fun p hp => h3 p (hmn p hp)) (le_trans h4 hzc)
    have heq : carveMazeF (fuel + 1) g x y rng =
        List.foldl (carveStep (carveMazeF fuel) x y)
          (setCell g ⟨x, y⟩ 1, (shuffle DIRECTIONS rng).2) (shuffle DIRECTIONS rng).1 := rfl
    have hmain := hfold (shuffle DIRECTIONS rng).1 (fun e he => shuffle_mem he)
      (setCell g ⟨x, y⟩ 1, (shuffle DIRECTIONS rng).2) hinv1 hwt (fun p hp => hp) (le_refl _)
    rw [heq]
    obtain ⟨hm1, hm2, hm3, hm4⟩ := hmain
    refine ⟨hm1, hm2, ?_, ?_⟩
    · intro p hp
      exact hm3 p (hmono1 p hp)
    · omega

theorem getD_replicate {α : Type} (a d : α) :
    ∀ (n i : Nat), (List.replicate n a).getD i d = if i < n then a else d := by
  intro n
  induction n with
  | zero =>
    intro i
    simp
  | succ m ih =>
    intro i
    cases i with
    | zero => simp
    | succ j =>
      rw [List.replicate_succ]
      have : ((a :: List.replicate m a).getD (j + 1) d) = (List.replicate m a).getD j d := rfl
      rw [this, ih j]
      by_cases hj : j < m
      · rw [if_pos hj, if_pos (by omega)]
      · rw [if_neg hj, if_neg (by omega)]

theorem rect_initialGrid (size : Nat) :
    rectGrid (initialGrid size) (size * 2 + 1) (size * 2 + 1) := by
  constructor
  · simp [initialGrid]
  · intro row hrow
    rw [initialGrid] at hrow
    rw [List.eq_of_mem_replicate hrow]
    simp

theorem getCell_initialGrid (size : Nat) (p : Position) : getCell (initialGrid size) p = 0 := by
  rw [getCell]
  split
  · rw [initialGrid, getD_replicate]
    split
    · rw [getD_replicate]
      split <;> rfl
    · rfl
  · rfl

theorem carvePre_initial (size : Nat) (hs : 1 ≤ size) :
    CarvePre (size * 2 + 1) (size * 2 + 1) (initialGrid size) ⟨1, 1⟩ := by
  have hnw : ∀ p, ¬ walkableAt (initialGrid size) p := fun p =>
    not_walkableAt_of_zero (getCell_initialGrid size p)
  refine ⟨rect_initialGrid size, fun p => Or.inl (getCell_initialGrid size p),
    fun p hp => absurd hp (hnw p), fun p hp => absurd hp (hnw p),
    fun p hp => absurd hp (hnw p), fun a b ha => absurd ha (hnw a),
    ⟨by norm_num, by norm_num⟩, ?_, getCell_initialGrid size _, Or.inl hnw⟩
  refine ⟨by norm_num, ?_, by norm_num, ?_⟩ <;> simp only <;> omega

/-- The carved grid satisfies the full invariant and has (1,1) carved. -/
theorem carved_grid_inv (size : Nat) (hs : 1 ≤ size) (rng : List Nat) :
    CarveInv (size * 2 + 1) (size * 2 + 1)
      (carveMazeF (carveFuel size) (initialGrid size) 1 1 rng).1 ∧
    getCell (carveMazeF (carveFuel size) (initialGrid size) 1 1 rng).1 ⟨1, 1⟩ = 1 := by
  have hz : zeroCount (initialGrid size) < carveFuel size := by
    have := zeroCount_le (rect_initialGrid size)
    rw [carveFuel]
    omega
  have h := carve_spec (size * 2 + 1) (size * 2 + 1) (carveFuel size) (initialGrid size)
    1 1 rng (carvePre_initial size hs) hz
  obtain ⟨hinv, hwalk, _, _⟩ := h
  refine ⟨hinv, ?_⟩
  rcases hinv.vals ⟨1, 1⟩ with h1 | h1
  · exact absurd hwalk (not_walkableAt_of_zero h1)
  · exact h1

theorem mem_intsFrom1To {n x : Int} (h : x ∈ intsFrom1To n) : 1 ≤ x ∧ x ≤ n := by
  rw [intsFrom1To] at h
  obtain ⟨i, hi, rfl⟩ := List.mem_map.mp h
  rw [List.mem_range] at hi
  omega

theorem mem_intsFrom1To_of {n x : Int} (h1 : 1 ≤ x) (h2 : x ≤ n) : x ∈ intsFrom1To n := by
  rw [intsFrom1To]
  refine List.mem_map.mpr ⟨(x - 1).toNat, ?_, by omega⟩
  rw [List.mem_range]
  omega

/-- Every candidate returned by the border scan of findExit is a border cell
whose interior-adjacent cell is a carved path cell. -/
theorem exitCandidates_mem {g : MazeGrid} {p : Position} (h : p ∈ exitCandidates g) :
    (1 ≤ p.x ∧ p.x ≤ (gridWidth g : Int) - 2 ∧ p.y = 0 ∧ getCell g ⟨p.x, 1⟩ = 1) ∨
    (1 ≤ p.x ∧ p.x ≤ (gridWidth g : Int) - 2 ∧ p.y = (gridHeight g : Int) - 1 ∧
      getCell g ⟨p.x, (gridHeight g : Int) - 2⟩ = 1) ∨
    (1 ≤ p.y ∧ p.y ≤ (gridHeight g : Int) - 2 ∧ p.x = 0 ∧ getCell g ⟨1, p.y⟩ = 1) ∨
    (1 ≤ p.y ∧ p.y ≤ (gridHeight g : Int) - 2 ∧ p.x = (gridWidth g : Int) - 1 ∧
      getCell g ⟨(gridWidth g : Int) - 2, p.y⟩ = 1) := by
  rw [exitCandidates] at h
  rcases List.mem_append.mp h with h1 | h1
  · obtain ⟨xx, hxx, hin⟩ := List.mem_flatMap.mp h1
    obtain ⟨hx1, hx2⟩ := mem_intsFrom1To hxx
    rcases List.mem_append.mp hin with h2 | h2
    · split at h2
      · rename_i hcell
        left
        rcases List.mem_singleton.mp h2 with rfl
        exact ⟨by simpa using hx1, by simpa using (by omega : xx ≤ (gridWidth g : Int) - 2),
          rfl, by simpa using hcell⟩
      · cases h2
    · split at h2
      · rename_i hcell
        right
        left
        rcases List.mem_singleton.mp h2 with rfl
        refine ⟨by simpa using hx1, ?_, rfl, ?_⟩
        · dsimp only
          omega
        · have hconv : (⟨xx, (gridHeight g : Int) - 2⟩ : Position) =
              ⟨xx, (gridHeight g : Int) - 1 - 1⟩ := by
            simp only [Position.mk.injEq, true_and]
            omega
          rw [hconv]
          simpa using hcell
      · cases h2
  · obtain ⟨yy, hyy, hin⟩ := List.mem_flatMap.mp h1
    obtain ⟨hy1, hy2⟩ := mem_intsFrom1To hyy
    rcases List.mem_append.mp hin with h2 | h2
    · split at h2
      · rename_i hcell
        right
        right
        left
        rcases List.mem_singleton.mp h2 with rfl
        refine ⟨by simpa using hy1, ?_, rfl, ?_⟩
        · dsimp only
          omega
        · simpa using hcell
      · cases h2
    · split at h2
      · rename_i hcell
        right
        right
        right
        rcases List.mem_singleton.mp h2 with rfl
        refine ⟨by simpa using hy1, ?_, rfl, ?_⟩
        · dsimp only
          omega
        · have hconv : (⟨(gridWidth g : Int) - 2, yy⟩ : Position) =
              ⟨(gridWidth g : Int) - 1 - 1, yy⟩ := by
            simp only [Position.mk.injEq, and_true]
            omega
          rw [hconv]
          simpa using hcell
      · cases h2

theorem getD_mod_mem {α : Type} {l : List α} (h : l ≠ []) (k : Nat) (d : α) :
    l.getD (k % l.length) d ∈ l := by
  have hlen : 0 < l.length := List.length_pos.mpr h
  have hlt : k % l.length < l.length := Nat.mod_lt _ hlen
  rw [List.getD_eq_getElem?_getD, List.getElem?_eq_getElem hlt]
  exact List.getElem_mem hlt

theorem exitCandidates_top_mem {g : MazeGrid} {x : Int} (hx1 : 1 ≤ x)
    (hx2 : x ≤ (gridWidth g : Int) - 1 - 1) (hcell : getCell g ⟨x, 1⟩ = 1) :
    (⟨x, 0⟩ : Position) ∈ exitCandidates g := by
  rw [exitCandidates]
  refine List.mem_append.mpr (Or.inl ?_)
  refine List.mem_flatMap.mpr ⟨x, mem_intsFrom1To_of hx1 hx2, ?_⟩
  rw [if_pos hcell]
  exact List.mem_append.mpr (Or.inl (List.mem_singleton.mpr rfl))

theorem findExit_mem {g : MazeGrid} (rng : List Nat) (h : exitCandidates g ≠ []) :
    (findExit g rng).1 ∈ exitCandidates g := by
  rw [findExit]
  dsimp only
  rw [if_neg h]
  exact getD_mod_mem h _ _

/-- Every candidate cell of findExit is an unwalkable border cell with
exactly one walkable 4-neighbor on a grid whose walkable cells lie in the
interior. -/
theorem exitCandidates_leaf {g : MazeGrid} {W H : Nat} (hW : gridWidth g = W)
    (hH : gridHeight g = H) (hW3 : 3 ≤ W) (hH3 : 3 ≤ H)
    (hint : ∀ r, walkableAt g r → inInterior W H r)
    {p : Position} (hmem : p ∈ exitCandidates g) :
    ∃ q, adjacent q p ∧ walkableAt g q ∧
      (∀ w, adjacent w p → walkableAt g w → w = q) ∧
      onBorder W H p ∧ ¬ walkableAt g p := by
  have hcases := exitCandidates_mem hmem
  rw [hW, hH] at hcases
  rcases hcases with ⟨h1, h2, h3, h4⟩ | ⟨h1, h2, h3, h4⟩ | ⟨h1, h2, h3, h4⟩ | ⟨h1, h2, h3, h4⟩
  · refine ⟨⟨p.x, 1⟩, ?_, Or.inl h4, ?_, ?_, ?_⟩
    · unfold adjacent
      dsimp only
      omega
    · intro w hadj hw
      have hi := hint w hw
      obtain ⟨wx, wy⟩ := w
      unfold adjacent at hadj
      unfold inInterior at hi
      dsimp only at hadj hi
      simp only [Position.mk.injEq]
      omega
    · unfold onBorder
      omega
    · intro hwp
      have hi := hint p hwp
      unfold inInterior at hi
      omega
  · refine ⟨⟨p.x, (H : Int) - 2⟩, ?_, Or.inl h4, ?_, ?_, ?_⟩
    · unfold adjacent
      dsimp only
      omega
    · intro w hadj hw
      have hi := hint w hw
      obtain ⟨wx, wy⟩ := w
      unfold adjacent at hadj
      unfold inInterior at hi
      dsimp only at hadj hi
      simp only [Position.mk.injEq]
      omega
    · unfold onBorder
      omega
    · intro hwp
      have hi := hint p hwp
      unfold inInterior at hi
      omega
  · refine ⟨⟨1, p.y⟩, ?_, Or.inl h4, ?_, ?_, ?_⟩
    · unfold adjacent
      dsimp only
      omega
    · intro w hadj hw
      have hi := hint w hw
      obtain ⟨wx, wy⟩ := w
      unfold adjacent at hadj
      unfold inInterior at hi
      dsimp only at hadj hi
      simp only [Position.mk.injEq]
      omega
    · unfold onBorder
      omega
    · intro hwp
      have hi := hint p hwp
      unfold inInterior at hi
      omega
  · refine ⟨⟨(W : Int) - 2, p.y⟩, ?_, Or.inl h4, ?_, ?_, ?_⟩
    · unfold adjacent
      dsimp only
      omega
    · intro w hadj hw
      have hi := hint w hw
      obtain ⟨wx, wy⟩ := w
      unfold adjacent at hadj
      unfold inInterior at hi
      dsimp only at hadj hi
      simp only [Position.mk.injEq]
      omega
    · unfold onBorder
      omega
    · intro hwp
      have hi := hint p hwp
      unfold inInterior at hi
      omega

/-- The grid produced by generateMaze: rectangular of side 2*size+1, perfect,
its walkable cells are the carved cells plus the exit leaf, and the exit sits
on the border. -/
theorem generateMaze_spec (size : Nat) (hs : 1 ≤ size) (rng : List Nat) :
    rectGrid (generateMaze size rng).1.grid (size * 2 + 1) (size * 2 + 1) ∧
    PerfectOn (generateMaze size rng).1.grid ∧
    (∀ p, walkableAt (generateMaze size rng).1.grid p ↔
      (walkableAt (carveMazeF (carveFuel size) (initialGrid size) 1 1 rng).1 p ∨
        p = (generateMaze size rng).1.exit)) ∧
    onBorder (size * 2 + 1) (size * 2 + 1) (generateMaze size rng).1.exit := by
  obtain ⟨hinv, hc11⟩ := carved_grid_inv size hs rng
  have hW : gridWidth (carveMazeF (carveFuel size) (initialGrid size) 1 1 rng).1
      = size * 2 + 1 := gridWidth_rect hinv.rect (by omega)
  have hH : gridHeight (carveMazeF (carveFuel size) (initialGrid size) 1 1 rng).1
      = size * 2 + 1 := gridHeight_rect hinv.rect
  have hne : exitCandidates (carveMazeF (carveFuel size) (initialGrid size) 1 1 rng).1 ≠ [] := by
    refine List.ne_nil_of_mem (exitCandidates_top_mem le_rfl ?_ hc11)
    rw [hW]
    omega
  have hmem := findExit_mem (carveMazeF (carveFuel size) (initialGrid size) 1 1 rng).2 hne
  obtain ⟨q, hqadj, hqw, huniq, hborder, hnw⟩ :=
    exitCandidates_leaf hW hH (by omega) (by omega) hinv.interior hmem
  have hgrid : (generateMaze size rng).1.grid =
      setCell (carveMazeF (carveFuel size) (initialGrid size) 1 1 rng).1
        (findExit (carveMazeF (carveFuel size) (initialGrid size) 1 1 rng).1
          (carveMazeF (carveFuel size) (initialGrid size) 1 1 rng).2).1 2 := by
    simp only [generateMaze]
  have hexit : (generateMaze size rng).1.exit =
      (findExit (carveMazeF (carveFuel size) (initialGrid size) 1 1 rng).1
        (carveMazeF (carveFuel size) (initialGrid size) 1 1 rng).2).1 := by
    simp only [generateMaze]
  obtain ⟨hb, hside⟩ := hborder
  have hiff := walkableAt_setCell hinv.rect hb.1 hb.2.1 hb.2.2.1 hb.2.2.2 (Or.inr rfl)
  rw [hgrid, hexit]
  refine ⟨rectGrid_setCell hinv.rect hb.1 hb.2.1 hb.2.2.1 hb.2.2.2 2, ?_, hiff, hb, hside⟩
  exact perfect_extend_leaf hiff hnw hqw hqadj huniq hinv.perfect

theorem stepN_zero (p : Position) (d : Direction) : stepN p d 0 = p := by
  cases p
  simp [stepN]

theorem stepN_one (p : Position) (d : Direction) : stepN p d 1 = stepPos p d := by
  cases p
  simp [stepN, stepPos]

theorem stepN_shift (p : Position) (d : Direction) (n : Nat) :
    stepN (stepPos p d) d n = stepN p d (n + 1) := by
  cases p
  simp only [stepN, stepPos, Position.mk.injEq]
  constructor <;> push_cast <;> ring

theorem stepPos_stepN (p : Position) (d : Direction) (n : Nat) :
    stepPos (stepN p d n) d = stepN p d (n + 1) := by
  cases p
  simp only [stepN, stepPos, Position.mk.injEq]
  constructor <;> push_cast <;> ring

/-- Full characterization of the movement while-loop: it takes some number
of steps n bounded by the fuel, every entered cell was walkable, no strictly
earlier cell was a stop cell, and if the fuel did not run out the loop ended
on a stop cell or in front of a non-walkable cell. -/
theorem moveLoop_spec (grid : MazeGrid) (d : Direction) :
    ∀ (fuel : Nat) (cur : Position) (s : Nat),
    ∃ n : Nat,
      moveLoop grid d fuel cur s = (stepN cur d n, s + n) ∧ n ≤ fuel ∧
      (∀ i, 1 ≤ i → i ≤ n → stepFree grid (stepN cur d i)) ∧
      (∀ i, 1 ≤ i → i < n → ¬ hardStop grid (stepN cur d i)) ∧
      (n < fuel →
        (hardStop grid (stepN cur d n) ∧ 1 ≤ n) ∨ ¬ stepFree grid (stepN cur d (n + 1))) := by
  intro fuel
  induction fuel with
  | zero =>
    intro cur s
    refine ⟨0, by simp [moveLoop, stepN_zero], Nat.le_refl 0, ?_, ?_, ?_⟩
    · intro i h1 h2
      omega
    · intro i h1 h2
      omega
    · intro h
      omega
  | succ fuel ih =>
    intro cur s
    by_cases hfree : stepFree grid (stepPos cur d)
    · by_cases hexit : getCell grid (stepPos cur d) = 2
      · refine ⟨1, ?_, by omega, ?_, ?_, ?_⟩
        · simp [moveLoop, hfree, hexit, stepN_one]
        · intro i h1 h2
          have hi : i = 1 := by omega
          subst hi
          rw [stepN_one]
          exact hfree
        · intro i h1 h2
          omega
        · intro _
          refine Or.inl ⟨?_, le_refl 1⟩
          rw [stepN_one]
          exact Or.inl hexit
      · by_cases hjun : 3 ≤ countOpenNeighbors grid (stepPos cur d)
        · refine ⟨1, ?_, by omega, ?_, ?_, ?_⟩
          · simp [moveLoop, hfree, hexit, hjun, stepN_one]
          · intro i h1 h2
            have hi : i = 1 := by omega
            subst hi
            rw [stepN_one]
            exact hfree
          · intro i h1 h2
            omega
          · intro _
            refine Or.inl ⟨?_, le_refl 1⟩
            rw [stepN_one]
            exact Or.inr hjun
        · obtain ⟨m, heq, hm, hfree2, hstop2, hend⟩ := ih (stepPos cur d) (s + 1)
          have hstep : moveLoop grid d (fuel + 1) cur s =
              moveLoop grid d fuel (stepPos cur d) (s + 1) := by
            simp [moveLoop, hfree, hexit, hjun]
          refine ⟨m + 1, ?_, by omega, ?_, ?_, ?_⟩
          · rw [hstep, heq, stepN_shift]
            congr 1
            omega
          · intro i h1 h2
            rcases Nat.lt_or_ge i 2 with hi | hi
            · have hi1 : i = 1 := by omega
              subst hi1
              rw [stepN_one]
              exact hfree
            · have h' := hfree2 (i - 1) (by omega) (by omega)
              rw [stepN_shift] at h'
              have hii : i - 1 + 1 = i := by omega
              rw [hii] at h'
              exact h'
          · intro i h1 h2
            rcases Nat.lt_or_ge i 2 with hi | hi
            · have hi1 : i = 1 := by omega
              subst hi1
              rw [stepN_one]
              intro hcon
              rcases hcon with hc | hc
              · exact hexit hc
              · exact hjun hc
            · have h' := hstop2 (i - 1) (by omega) (by omega)
              rw [stepN_shift] at h'
              have hii : i - 1 + 1 = i := by omega
              rw [hii] at h'
              exact h'
          · intro hlt
            rcases hend (by omega) with ⟨hh, hm1⟩ | hh
            · rw [stepN_shift] at hh
              exact Or.inl ⟨hh, by omega⟩
            · rw [stepN_shift] at hh
              exact Or.inr hh
    · refine ⟨0, ?_, by omega, ?_, ?_, ?_⟩
      · simp [moveLoop, hfree, stepN_zero]
      · intro i h1 h2
        omega
      · intro i h1 h2
        omega
      · intro _
        right
        simpa [stepN_one] using hfree

/-- A glide whose every entered cell is walkable cannot be as long as the
cell count of the grid: along a fixed direction one coordinate moves
strictly monotonically inside the bounds. -/
theorem glide_bounded (grid : MazeGrid) (d : Direction) (cur : Position)
    (hin : inBounds grid cur) {n : Nat}
    (hfree : ∀ i, 1 ≤ i → i ≤ n → stepFree grid (stepN cur d i)) :
    n < gridHeight grid * gridWidth grid := by
  obtain ⟨hy0, hyH, hx0, hxW⟩ := hin
  have hH : 1 ≤ gridHeight grid := by omega
  have hW : 1 ≤ gridWidth grid := by omega
  rcases Nat.eq_zero_or_pos n with rfl | hn
  · calc 0 < 1 * 1 := by omega
      _ ≤ gridHeight grid * gridWidth grid := Nat.mul_le_mul hH hW
  · obtain ⟨hlast, _⟩ := hfree n hn (le_refl n)
    obtain ⟨hy0', hyH', hx0', hxW'⟩ := hlast
    cases d with
    | UP =>
      simp only [stepN, directionVectors] at hy0'
      have hnH : n < gridHeight grid := by omega
      calc n < gridHeight grid := hnH
        _ ≤ gridHeight grid * gridWidth grid := Nat.le_mul_of_pos_right _ (by omega)
    | DOWN =>
      simp only [stepN, directionVectors] at hyH'
      have hnH : n < gridHeight grid := by omega
      calc n < gridHeight grid := hnH
        _ ≤ gridHeight grid * gridWidth grid := Nat.le_mul_of_pos_right _ (by omega)
    | LEFT =>
      simp only [stepN, directionVectors] at hx0'
      have hnW : n < gridWidth grid := by omega
      calc n < gridWidth grid := hnW
        _ ≤ gridHeight grid * gridWidth grid := Nat.le_mul_of_pos_left _ (by omega)
    | RIGHT =>
      simp only [stepN, directionVectors] at hxW'
      have hnW : n < gridWidth grid := by omega
      calc n < gridWidth grid := hnW
        _ ≤ gridHeight grid * gridWidth grid := Nat.le_mul_of_pos_left _ (by omega)

/-- moveToNextJunction realizes the spec's glide: INVALID_MOVE (none) exactly
when the immediately adjacent cell is not walkable, otherwise at least one
step, every entered cell walkable, no early stop cell, and the result stops
on the exit, on a junction, or right before a non-walkable cell. -/
theorem moveToNextJunction_spec (grid : MazeGrid) (d : Direction) (start : Position)
    (hin : inBounds grid start) :
    (¬ stepFree grid (stepPos start d) → moveToNextJunction grid start d = none) ∧
    (stepFree grid (stepPos start d) →
      ∃ n, 1 ≤ n ∧ moveToNextJunction grid start d = some (stepN start d n, n) ∧
        (∀ i, 1 ≤ i → i ≤ n → stepFree grid (stepN start d i)) ∧
        (∀ i, 1 ≤ i → i < n → ¬ hardStop grid (stepN start d i)) ∧
        (hardStop grid (stepN start d n) ∨ ¬ stepFree grid (stepN start d (n + 1)))) := by
  obtain ⟨n, heq, hle, hfree, hstop, hend⟩ :=
    moveLoop_spec grid d (gridHeight grid * gridWidth grid) start 0
  have hnfuel : n < gridHeight grid * gridWidth grid := glide_bounded grid d start hin hfree
  constructor
  · intro hblock
    have hn0 : n = 0 := by
      by_contra hcon
      exact hblock (by simpa [stepN_one] using hfree 1 (by omega) (by omega))
    rw [moveToNextJunction, heq, hn0]
    rfl
  · intro hok
    have hn1 : 1 ≤ n := by
      rcases Nat.eq_zero_or_pos n with h0 | h1
      · subst h0
        rcases hend hnfuel with ⟨_, hcon⟩ | hcon
        · omega
        · exact absurd (by simpa [stepN_one] using hok) hcon
      · exact h1
    refine ⟨n, hn1, ?_, hfree, hstop, ?_⟩
    · rw [moveToNextJunction, heq]
      simp only [Nat.zero_add]
      rw [if_neg (by omega)]
    · rcases hend hnfuel with ⟨hh, _⟩ | hh
      · exact Or.inl hh
      · exact Or.inr hh

/-- C1: in a PLAYING game, for a present player and a recognized direction,
handleMove glides: if the adjacent cell is not walkable it fails with
INVALID_MOVE leaving the store unchanged; otherwise it takes n at least 1
steps through walkable cells, stops at the first exit or junction cell or
right before a wall or boundary, stores that cell as the player's new
position, and returns it with durationMs = n * speedMs. -/
theorem C1_resolveMove_glide (speedMs now : Nat) (games : Games)
    (code clientId dirStr : String) (game : GameState) (player : PlayerGameState)
    (d : Direction)
    (hg : lookup games code = some game)
    (hphase : game.phase = GamePhase.PLAYING)
    (hp : lookup game.players clientId = some player)
    (hd : parseDirection dirStr = some d)
    (hin : inBounds game.maze.grid player.position) :
    (¬ stepFree game.maze.grid (stepPos player.position d) →
      handleMove speedMs now games code clientId dirStr = (games, .error .INVALID_MOVE)) ∧
    (stepFree game.maze.grid (stepPos player.position d) →
      ∃ n stop, 1 ≤ n ∧ stop = stepN player.position d n ∧
        (∀ i, 1 ≤ i → i ≤ n → stepFree game.maze.grid (stepN player.position d i)) ∧
        (∀ i, 1 ≤ i → i < n → ¬ hardStop game.maze.grid (stepN player.position d i)) ∧
        (hardStop game.maze.grid stop ∨ ¬ stepFree game.maze.grid (stepPos stop d)) ∧
        (handleMove speedMs now games code clientId dirStr).2 =
          .ok { position := stop, durationMs := n * speedMs } ∧
        (∃ game2 player2,
          lookup (handleMove speedMs now games code clientId dirStr).1 code = some game2 ∧
          lookup game2.players clientId = some player2 ∧ player2.position = stop)) := by
  obtain ⟨hblockc, hokc⟩ := moveToNextJunction_spec game.maze.grid d player.position hin
  have hnp : ¬ game.phase ≠ GamePhase.PLAYING := by simp [hphase]
  constructor
  · intro hblock
    have hmv := hblockc hblock
    simp only [handleMove, hg, hp, hd, hmv]
    rw [if_neg hnp]
  · intro hok
    obtain ⟨n, hn1, hmv, hfree, hstop, hend⟩ := hokc hok
    refine ⟨n, stepN player.position d n, hn1, rfl, hfree, hstop, ?_, ?_, ?_⟩
    · rcases hend with hh | hh
      · exact Or.inl hh
      · right
        rw [stepPos_stepN]
        exact hh
    · simp only [handleMove, hg, hp, hd, hmv]
      rw [if_neg hnp]
    · have hlookg : ∀ v : GameState, lookup (updateKV games code v) code = some v := by
        intro v
        rw [lookup_updateKV, hg]
        rfl
      have hlookp : ∀ q : PlayerGameState,
          lookup (updateKV game.players clientId q) clientId = some q := by
        intro q
        rw [lookup_updateKV, hp]
        rfl
      simp only [handleMove, hg, hp, hd, hmv]
      rw [if_neg hnp]
      by_cases hc : getCell game.maze.grid (stepN player.position d n) = 2
      · rw [if_pos hc]
        exact ⟨_, _, hlookg _, hlookp _, rfl⟩
      · rw [if_neg hc]
        exact ⟨_, _, hlookg _, hlookp _, rfl⟩

/-- C1 witness: the corridor glide from (1,1) rightwards, requested in lower
case, takes its steps and stops in front of the wall. -/
theorem C1_resolveMove_glide_witness :
    ∃ n stop, 1 ≤ n ∧ stop = stepN playerC.position Direction.RIGHT n ∧
      (∀ i, 1 ≤ i → i ≤ n →
        stepFree gameC.maze.grid (stepN playerC.position Direction.RIGHT i)) ∧
      (∀ i, 1 ≤ i → i < n →
        ¬ hardStop gameC.maze.grid (stepN playerC.position Direction.RIGHT i)) ∧
      (hardStop gameC.maze.grid stop ∨
        ¬ stepFree gameC.maze.grid (stepPos stop Direction.RIGHT)) ∧
      (handleMove 50 0 [("1234", gameC)] "1234" "c1" "right").2 =
        .ok { position := stop, durationMs := n * 50 } ∧
      (∃ game2 player2,
        lookup (handleMove 50 0 [("1234", gameC)] "1234" "c1" "right").1 "1234" = some game2 ∧
        lookup game2.players "c1" = some player2 ∧ player2.position = stop) :=
  (C1_resolveMove_glide 50 0 [("1234", gameC)] "1234" "c1" "right" gameC playerC
    Direction.RIGHT (by decide) (by decide) (by decide) (by decide) (by decide)).2 (by decide)

/-- C8 witness: starting from the two-member lobby led by c1. -/
theorem C8_startGame_acceptances_witness :
    (handleStartGameLobby lobbyB).status = LobbyStatus.STARTING ∧
    (∀ p ∈ (handleStartGameLobby lobbyB).players,
      p.clientId ≠ lobbyB.leaderId → p.acceptedGame = false) ∧
    (∃ p ∈ (handleStartGameLobby lobbyB).players,
      p.clientId = lobbyB.leaderId ∧ p.acceptedGame = true) :=
  C8_startGame_acceptances lobbyB
    ⟨{ clientId := "c1", name := "Ann", acceptedGame := false }, by decide, by decide⟩

/-- C10: for every size at least 1 and every outcome of the randomness, the
exit-candidate list scanned by findExit over the carved grid is non-empty
(cell (1,1) is always carved, so the top-border cell (1,0) is a candidate),
hence the deterministic bottom-right fallback of findExit is unreachable and
the exit of generateMaze is a border cell whose interior-adjacent cell is a
carved path cell. -/
theorem C10_exit_candidates (size : Nat) (hs : 1 ≤ size) (rng : List Nat) :
    exitCandidates (carveMazeF (carveFuel size) (initialGrid size) 1 1 rng).1 ≠ [] ∧
    (generateMaze size rng).1.exit ∈
      exitCandidates (carveMazeF (carveFuel size) (initialGrid size) 1 1 rng).1 ∧
    onBorder (size * 2 + 1) (size * 2 + 1) (generateMaze size rng).1.exit ∧
    ∃ q, adjacent (generateMaze size rng).1.exit q ∧
      inInterior (size * 2 + 1) (size * 2 + 1) q ∧
      getCell (carveMazeF (carveFuel size) (initialGrid size) 1 1 rng).1 q = 1 := by
  obtain ⟨hinv, hc11⟩ := carved_grid_inv size hs rng
  have hW : gridWidth (carveMazeF (carveFuel size) (initialGrid size) 1 1 rng).1
      = size * 2 + 1 := gridWidth_rect hinv.rect (by omega)
  have hH : gridHeight (carveMazeF (carveFuel size) (initialGrid size) 1 1 rng).1
      = size * 2 + 1 := gridHeight_rect hinv.rect
  have hne : exitCandidates (carveMazeF (carveFuel size) (initialGrid size) 1 1 rng).1 ≠ [] := by
    refine List.ne_nil_of_mem (exitCandidates_top_mem le_rfl ?_ hc11)
    rw [hW]
    omega
  have hexit : (generateMaze size rng).1.exit =
      (findExit (carveMazeF (carveFuel size) (initialGrid size) 1 1 rng).1
        (carveMazeF (carveFuel size) (initialGrid size) 1 1 rng).2).1 := by
    simp only [generateMaze]
  have hmem := findExit_mem (carveMazeF (carveFuel size) (initialGrid size) 1 1 rng).2 hne
  rw [hexit]
  refine ⟨hne, hmem, ?_⟩
  have hcases := exitCandidates_mem hmem
  rw [hW, hH] at hcases
  rcases hcases with ⟨h1, h2, h3, h4⟩ | ⟨h1, h2, h3, h4⟩ | ⟨h1, h2, h3, h4⟩ | ⟨h1, h2, h3, h4⟩
  · refine ⟨?_, _, ?_, ?_, h4⟩
    · unfold onBorder
      omega
    · unfold adjacent
      dsimp only
      omega
    · unfold inInterior
      dsimp only
      omega
  · refine ⟨?_, _, ?_, ?_, h4⟩
    · unfold onBorder
      omega
    · unfold adjacent
      dsimp only
      omega
    · unfold inInterior
      dsimp only
      omega
  · refine ⟨?_, _, ?_, ?_, h4⟩
    · unfold onBorder
      omega
    · unfold adjacent
      dsimp only
      omega
    · unfold inInterior
      dsimp only
      omega
  · refine ⟨?_, _, ?_, ?_, h4⟩
    · unfold onBorder
      omega
    · unfold adjacent
      dsimp only
      omega
    · unfold inInterior
      dsimp only
      omega

/-- C10 witness: size 1 with the empty randomness stream. -/
theorem C10_exit_candidates_witness :
    1 ≤ 1 ∧
    (exitCandidates (carveMazeF (carveFuel 1) (initialGrid 1) 1 1 []).1 ≠ [] ∧
     (generateMaze 1 []).1.exit ∈
       exitCandidates (carveMazeF (carveFuel 1) (initialGrid 1) 1 1 []).1 ∧
     onBorder (1 * 2 + 1) (1 * 2 + 1) (generateMaze 1 []).1.exit ∧
     ∃ q, adjacent (generateMaze 1 []).1.exit q ∧
       inInterior (1 * 2 + 1) (1 * 2 + 1) q ∧
       getCell (carveMazeF (carveFuel 1) (initialGrid 1) 1 1 []).1 q = 1) :=
  ⟨le_rfl, C10_exit_candidates 1 le_rfl []⟩

/-- C4: for every size at least 1 and every outcome of the randomness,
generateMaze returns a grid of width and height exactly 2*size+1 whose
walkable cells form a tree (exactly one simple 4-directional path between any
two walkable cells), with every border cell a wall except the single exit
cell, which is walkable. -/
theorem C4_generateMaze_perfect (size : Nat) (hs : 1 ≤ size) (rng : List Nat) :
    (generateMaze size rng).1.width = size * 2 + 1 ∧
    (generateMaze size rng).1.height = size * 2 + 1 ∧
    rectGrid (generateMaze size rng).1.grid (size * 2 + 1) (size * 2 + 1) ∧
    PerfectOn (generateMaze size rng).1.grid ∧
    walkableAt (generateMaze size rng).1.grid (generateMaze size rng).1.exit ∧
    ∀ p, onBorder (size * 2 + 1) (size * 2 + 1) p →
      walkableAt (generateMaze size rng).1.grid p → p = (generateMaze size rng).1.exit := by
  obtain ⟨hinv, _⟩ := carved_grid_inv size hs rng
  obtain ⟨hrect, hperf, hiff, _⟩ := generateMaze_spec size hs rng
  refine ⟨by simp only [generateMaze], by simp only [generateMaze], hrect, hperf,
    (hiff _).mpr (Or.inr rfl), ?_⟩
  intro p hpb hpw
  rcases (hiff p).mp hpw with h | h
  · exfalso
    have hi := hinv.interior p h
    unfold onBorder at hpb
    unfold inInterior at hi
    omega
  · exact h

/-- C4 witness: the 3-by-3 maze of size 1 from the empty randomness stream. -/
theorem C4_generateMaze_perfect_witness :
    1 ≤ 1 ∧
    ((generateMaze 1 []).1.width = 1 * 2 + 1 ∧
     (generateMaze 1 []).1.height = 1 * 2 + 1 ∧
     rectGrid (generateMaze 1 []).1.grid (1 * 2 + 1) (1 * 2 + 1) ∧
     PerfectOn (generateMaze 1 []).1.grid ∧
     walkableAt (generateMaze 1 []).1.grid (generateMaze 1 []).1.exit ∧
     ∀ p, onBorder (1 * 2 + 1) (1 * 2 + 1) p →
       walkableAt (generateMaze 1 []).1.grid p → p = (generateMaze 1 []).1.exit) :=
  ⟨le_rfl, C4_generateMaze_perfect 1 le_rfl []⟩

theorem lookup_entry {α : Type} {m : List (String × α)} {k : String} {v : α}
    (h : lookup m k = some v) : ∃ e ∈ m, e.2 = v := by
  rw [lookup] at h
  obtain ⟨e, hfind, h2⟩ := Option.map_eq_some'.mp h
  exact ⟨e, List.mem_of_find?_eq_some hfind, h2⟩

theorem mem_updateKV {α : Type} {m : List (String × α)} {k : String} {v : α}
    {e : String × α} (h : e ∈ updateKV m k v) : e ∈ m ∨ e = (k, v) := by
  rw [updateKV] at h
  obtain ⟨e', he', heq⟩ := List.mem_map.mp h
  by_cases hk : e'.1 = k
  · right
    rw [if_pos hk] at heq
    exact heq.symm
  · left
    rw [if_neg hk] at heq
    exact heq ▸ he'

theorem mem_setKV {α : Type} {m : List (String × α)} {k : String} {v : α}
    {e : String × α} (h : e ∈ setKV m k v) : e ∈ m ∨ e = (k, v) := by
  rw [setKV] at h
  split at h
  · exact mem_updateKV h
  · rcases List.mem_append.mp h with h1 | h1
    · exact Or.inl h1
    · right
      simpa using h1

/-- Replacing the stored game by one with the same maze whose player entries
are old entries or sit on walkable cells preserves the walkability
invariant. -/
theorem pw_update2 {games : Games} (hpw : PositionsWalkable games) {code : String}
    {game game1 : GameState} (hl : lookup games code = some game)
    (hm : game1.maze = game.maze)
    (hp : ∀ pe ∈ game1.players, pe ∈ game.players ∨ walkableAt game.maze.grid pe.2.position) :
    PositionsWalkable (updateKV games code game1) := by
  intro e he pe hpe
  rcases mem_updateKV he with h | rfl
  · exact hpw e h pe hpe
  · obtain ⟨e', he', h2⟩ := lookup_entry hl
    subst h2
    dsimp only at hpe ⊢
    rw [hm]
    rcases hp pe hpe with h | h
    · exact hpw e' he' pe h
    · exact h

theorem walkableAt_of_isPath {g : MazeGrid} {p : Position} (h : isPath g p = true) :
    walkableAt g p := by
  rw [isPath] at h
  simp only [Bool.or_eq_true, beq_iff_eq] at h
  exact h

theorem neighbors_walkable {g : MazeGrid} {pos n : Position} (h : n ∈ neighbors g pos) :
    walkableAt g n := by
  rw [neighbors] at h
  obtain ⟨d, hd, hsome⟩ := List.mem_filterMap.mp h
  dsimp only at hsome
  split at hsome
  · rename_i hcond
    obtain rfl := Option.some.inj hsome
    exact walkableAt_of_isPath hcond.2
  · cases hsome

/-- The BFS loop only ever returns a walkable farthest cell when the initial
farthest cell and every queued cell are walkable. -/
theorem bfsLoop_walkable (g : MazeGrid) :
    ∀ (fuel : Nat) (visited : List Position) (queue : List (Position × Nat))
      (far : Position × Nat), walkableAt g far.1 →
      (∀ e ∈ queue, walkableAt g e.1) →
      walkableAt g (bfsLoopF g fuel visited queue far).1 := by
  intro fuel
  induction fuel with
  | zero =>
    intro visited queue far hf hq
    simpa [bfsLoopF] using hf
  | succ fuel ih =>
    intro visited queue far hf hq
    cases queue with
    | nil => simpa [bfsLoopF] using hf
    | cons next rest =>
      rw [bfsLoopF]
      split
      · exact ih visited rest far hf (fun e he => hq e (List.mem_cons_of_mem _ he))
      · dsimp only
        refine ih _ _ _ ?_ ?_
        · by_cases hlt : far.2 < next.2
          · rw [if_pos hlt]
            exact hq next (List.mem_cons_self _ _)
          · rw [if_neg hlt]
            exact hf
        · intro e he
          rcases List.mem_append.mp he with h | h
          · exact hq e (List.mem_cons_of_mem _ h)
          · obtain ⟨m, hm, rfl⟩ := List.mem_map.mp h
            exact neighbors_walkable hm

theorem stepFree_walkable {g : MazeGrid} {p : Position} (h : stepFree g p) :
    walkableAt g p := by
  obtain ⟨-, h2⟩ := h
  rw [isWalkable] at h2
  simp only [Bool.or_eq_true, beq_iff_eq] at h2
  exact h2

/-- A successful glide resolution ends on a walkable cell. -/
theorem moveToNextJunction_walkable {grid : MazeGrid} {start : Position}
    {direction : Direction} {pos : Position} {steps : Nat}
    (h : moveToNextJunction grid start direction = some (pos, steps)) :
    walkableAt grid pos := by
  obtain ⟨n, heq, hn, hfree, hstop, hend⟩ :=
    moveLoop_spec grid direction (gridHeight grid * gridWidth grid) start 0
  rw [moveToNextJunction] at h
  rw [heq] at h
  by_cases h0 : n = 0
  · subst h0
    simp at h
  · rw [if_neg (by simpa using h0)] at h
    have hp2 := Option.some.inj h
    rw [Prod.mk.injEq] at hp2
    obtain ⟨h1, h2⟩ := hp2
    rw [← h1]
    exact stepFree_walkable (hfree n (by omega) le_rfl)

theorem generateMaze_start_walkable (size : Nat) (hs : 1 ≤ size) (rng : List Nat) :
    walkableAt (generateMaze size rng).1.grid (generateMaze size rng).1.start := by
  obtain ⟨hrect, hperf, hiff, hborder⟩ := generateMaze_spec size hs rng
  have hexitw : walkableAt (generateMaze size rng).1.grid (generateMaze size rng).1.exit :=
    (hiff _).mpr (Or.inr rfl)
  have hstart : (generateMaze size rng).1.start =
      computeFarthestPosition (generateMaze size rng).1.grid (generateMaze size rng).1.exit := by
    simp only [generateMaze]
  rw [hstart, computeFarthestPosition]
  have hq : ∀ e ∈ [((generateMaze size rng).1.exit, 0)],
      walkableAt (generateMaze size rng).1.grid e.1 := by
    intro e he
    rw [List.mem_singleton] at he
    subst he
    dsimp only
    exact hexitw
  have hf : walkableAt (generateMaze size rng).1.grid
      ((((generateMaze size rng).1.exit, 0) : Position × Nat)).1 := by
    dsimp only
    exact hexitw
  exact bfsLoop_walkable _ _ [] [((generateMaze size rng).1.exit, 0)]
    ((generateMaze size rng).1.exit, 0) hf hq

/-- Every player entry produced by the createGame fold sits at the maze
start. -/
theorem createGame_player_positions (st : Position) :
    ∀ (players : List PlayerInfo) (acc : List (String × PlayerGameState)),
    (∀ pe ∈ acc, pe.2.position = st) →
    ∀ pe ∈ players.foldl (fun acc p => setKV acc p.clientId
        { clientId := p.clientId, name := p.name, position := st,
          targetPosition := none, movementEndsAt := none }) acc,
      pe.2.position = st := by
  intro players
  induction players with
  | nil =>
    intro acc hacc pe hpe
    exact hacc pe (by simpa using hpe)
  | cons p ps ih =>
    intro acc hacc pe hpe
    rw [List.foldl_cons] at hpe
    refine ih _ ?_ pe hpe
    intro pe' hpe'
    rcases mem_setKV hpe' with h | rfl
    · exact hacc pe' h
    · rfl

/-- Each engine operation preserves the walkability of all stored player
positions. -/
theorem applyGameOp_preserves {games : Games} (hpw : PositionsWalkable games) :
    ∀ (op : GameOp), GameOpValid op → PositionsWalkable (applyGameOp games op) := by
  intro op hv
  cases op with
  | create rng now code size players =>
    have hs : 1 ≤ size := hv
    intro e he pe hpe
    simp only [applyGameOp, createGame] at he
    rcases mem_setKV he with h | rfl
    · exact hpw e h pe hpe
    · dsimp only at hpe ⊢
      have hpos := createGame_player_positions (generateMaze size rng).1.start players []
        (by intro pe' hpe'; cases hpe') pe hpe
      rw [hpos]
      exact generateMaze_start_walkable size hs rng
  | countdown now code secs =>
    cases hg : lookup games code with
    | none =>
      simp only [applyGameOp, startCountdown, hg]
      exact hpw
    | some game =>
      simp only [applyGameOp, startCountdown, hg]
      refine pw_update2 hpw hg rfl ?_
      intro pe hpe
      exact Or.inl hpe
  | begin now code =>
    cases hg : lookup games code with
    | none =>
      simp only [applyGameOp, beginGame, hg]
      exact hpw
    | some game =>
      simp only [applyGameOp, beginGame, hg]
      refine pw_update2 hpw hg rfl ?_
      intro pe hpe
      exact Or.inl hpe
  | move speedMs now code cid dir =>
    cases hg : lookup games code with
    | none =>
      simp only [applyGameOp, handleMove, hg]
      exact hpw
    | some game =>
      by_cases hph : game.phase ≠ GamePhase.PLAYING
      · simp only [applyGameOp, handleMove, hg]
        rw [if_pos hph]
        exact hpw
      · cases hpl : lookup game.players cid with
        | none =>
          simp only [applyGameOp, handleMove, hg, hpl]
          rw [if_neg hph]
          exact hpw
        | some player =>
          cases hd : parseDirection dir with
          | none =>
            simp only [applyGameOp, handleMove, hg, hpl, hd]
            rw [if_neg hph]
            exact hpw
          | some direction =>
            cases hmv : moveToNextJunction game.maze.grid player.position direction with
            | none =>
              simp only [applyGameOp, handleMove, hg, hpl, hd, hmv]
              rw [if_neg hph]
              exact hpw
            | some r =>
              obtain ⟨pos, steps⟩ := r
              have hwpos : walkableAt game.maze.grid pos := moveToNextJunction_walkable hmv
              simp only [applyGameOp, handleMove, hg, hpl, hd, hmv]
              rw [if_neg hph]
              by_cases hc : getCell game.maze.grid pos = 2
              · rw [if_pos hc]
                refine pw_update2 hpw hg rfl ?_
                intro pe hpe
                rcases mem_updateKV hpe with h | rfl
                · exact Or.inl h
                · exact Or.inr hwpos
              · rw [if_neg hc]
                refine pw_update2 hpw hg rfl ?_
                intro pe hpe
                rcases mem_updateKV hpe with h | rfl
                · exact Or.inl h
                · exact Or.inr hwpos
  | disconnect now code cid =>
    cases hg : lookup games code with
    | none =>
      simp only [applyGameOp, markPlayerDisconnected, hg]
      exact hpw
    | some game =>
      cases hpl : lookup game.players cid with
      | none =>
        simp only [applyGameOp, markPlayerDisconnected, hg, hpl]
        exact hpw
      | some player =>
        simp only [applyGameOp, markPlayerDisconnected, hg, hpl]
        refine pw_update2 hpw hg rfl ?_
        intro pe hpe
        exact Or.inl hpe
  | reconnect now code cid =>
    cases hg : lookup games code with
    | none =>
      simp only [applyGameOp, markPlayerReconnected, hg]
      exact hpw
    | some game =>
      cases hpl : lookup game.players cid with
      | none =>
        simp only [applyGameOp, markPlayerReconnected, hg, hpl]
        exact hpw
      | some player =>
        simp only [applyGameOp, markPlayerReconnected, hg, hpl]
        refine pw_update2 hpw hg rfl ?_
        intro pe hpe
        exact Or.inl hpe

theorem foldl_applyGameOp_pw :
    ∀ (ops : List GameOp) (games : Games), PositionsWalkable games →
      (∀ op ∈ ops, GameOpValid op) → PositionsWalkable (List.foldl applyGameOp games ops) := by
  intro ops
  induction ops with
  | nil =>
    intro games h _
    simpa using h
  | cons op ops ih =>
    intro games h hv
    rw [List.foldl_cons]
    exact ih _ (applyGameOp_preserves h op (hv op (List.mem_cons_self _ _)))
      (fun o ho => hv o (List.mem_cons_of_mem _ ho))

/-- C9: for every sequence of well-typed engine operations applied to the
empty store, every player entry of every stored game sits on a walkable cell
of that game's maze grid; and createGame places every player at the maze
start (a walkable cell by generateMaze_start_walkable, while handleMove only
ever writes positions returned by moveToNextJunction, which are walkable). -/
theorem C9_positions_walkable (ops : List GameOp) (hv : ∀ op ∈ ops, GameOpValid op) :
    PositionsWalkable (List.foldl applyGameOp [] ops) ∧
    ∀ (rng : List Nat) (now : Nat) (games : Games) (code : String) (size : Nat)
      (players : List PlayerInfo),
      ∀ pe ∈ (createGame rng now games code size players).2.players,
        pe.2.position = (generateMaze size rng).1.start := by
  constructor
  · refine foldl_applyGameOp_pw ops [] ?_ hv
    intro e he
    cases he
  · intro rng now games code size players pe hpe
    simp only [createGame] at hpe
    exact createGame_player_positions (generateMaze size rng).1.start players []
      (by intro pe' hpe'; cases hpe') pe hpe

/-- C9 witness: a single createGame of size 1 on the empty store. -/
theorem C9_positions_walkable_witness :
    PositionsWalkable (List.foldl applyGameOp []
      [GameOp.create [] 0 "1234" 1 [{ clientId := "c1", name := "Ann" }]]) ∧
    ∀ (rng : List Nat) (now : Nat) (games : Games) (code : String) (size : Nat)
      (players : List PlayerInfo),
      ∀ pe ∈ (createGame rng now games code size players).2.players,
        pe.2.position = (generateMaze size rng).1.start :=
  C9_positions_walkable [GameOp.create [] 0 "1234" 1 [{ clientId := "c1", name := "Ann" }]]
    (by
      intro op hop
      rw [List.mem_singleton] at hop
      subst hop
      exact le_rfl)

theorem exists_isDist {g : MazeGrid} {E p : Position} {n : Nat} (h : ReachN g E p n) :
    ∃ d, IsDist g E p d ∧ d ≤ n := by
  classical
  have hex : ∃ m, ReachN g E p m := ⟨n, h⟩
  exact ⟨Nat.find hex, ⟨Nat.find_spec hex, fun m hm => Nat.find_le hm⟩, Nat.find_le h⟩

theorem isDist_unique {g : MazeGrid} {E p : Position} {d1 d2 : Nat}
    (h1 : IsDist g E p d1) (h2 : IsDist g E p d2) : d1 = d2 :=
  Nat.le_antisymm (h1.2 d2 h2.1) (h2.2 d1 h1.1)

theorem reachN_zero_eq {g : MazeGrid} {E p : Position} (h : ReachN g E p 0) : p = E := by
  cases h
  rfl

theorem isDist_zero {g : MazeGrid} {E : Position} : IsDist g E E 0 :=
  ⟨ReachN.zero, fun n _ => Nat.zero_le n⟩

theorem isDist_pred {g : MazeGrid} {E p : Position} {d : Nat}
    (h : IsDist g E p (d + 1)) :
    ∃ b, IsDist g E b d ∧ adjacent b p ∧ nodeOk g p := by
  obtain ⟨hr, hmin⟩ := h
  cases hr with
  | succ hb hadj hok =>
    rename_i b
    obtain ⟨db, hdb, hle⟩ := exists_isDist hb
    have : d + 1 ≤ db + 1 := hmin (db + 1) (ReachN.succ hdb.1 hadj hok)
    have hdbd : db = d := by omega
    exact ⟨b, hdbd ▸ hdb, hadj, hok⟩

theorem isDist_exists_at {g : MazeGrid} {E : Position} {d : Nat} :
    ∀ {p : Position}, IsDist g E p d → ∀ i, i ≤ d → ∃ c, IsDist g E c i := by
  induction d with
  | zero =>
    intro p h i hi
    have hi0 : i = 0 := by omega
    subst hi0
    exact ⟨p, h⟩
  | succ d ih =>
    intro p h i hi
    rcases Nat.lt_or_ge i (d + 1) with hlt | hge
    · obtain ⟨b, hb, -, -⟩ := isDist_pred h
      exact ih hb i (by omega)
    · have : i = d + 1 := by omega
      subst this
      exact ⟨p, h⟩

theorem isPath_of_walkableAt {g : MazeGrid} {p : Position} (h : walkableAt g p) :
    isPath g p = true := by
  rw [isPath]
  rcases h with h | h <;> simp [h]

theorem mem_neighbors {g : MazeGrid} {b c : Position} :
    c ∈ neighbors g b ↔ (adjacent b c ∧ nodeOk g c) := by
  constructor
  · intro h
    rw [neighbors] at h
    obtain ⟨d, hd, hsome⟩ := List.mem_filterMap.mp h
    dsimp only at hsome
    split at hsome
    · rename_i hcond
      obtain rfl := Option.some.inj hsome
      refine ⟨?_, hcond⟩
      fin_cases hd <;> (unfold adjacent; dsimp only; omega)
    · cases hsome
  · rintro ⟨hadj, hok⟩
    rw [neighbors]
    refine List.mem_filterMap.mpr ?_
    unfold adjacent at hadj
    have h4 : (c.x = b.x ∧ c.y = b.y + -1) ∨ (c.x = b.x + 1 ∧ c.y = b.y + 0) ∨
        (c.x = b.x + 0 ∧ c.y = b.y + 1) ∨ (c.x = b.x + -1 ∧ c.y = b.y + 0) := by
      omega
    have hmk : (⟨c.x, c.y⟩ : Position) = c := rfl
    rcases h4 with ⟨h1, h2⟩ | ⟨h1, h2⟩ | ⟨h1, h2⟩ | ⟨h1, h2⟩
    · refine ⟨⟨0, -1⟩, by simp, ?_⟩
      dsimp only
      have hcn : (⟨b.x + 0, b.y + -1⟩ : Position) = c := by
        rw [← hmk]
        simp only [Position.mk.injEq]
        exact ⟨by omega, by omega⟩
      rw [hcn, if_pos (show inBounds g c ∧ isPath g c = true from hok)]
    · refine ⟨⟨1, 0⟩, by simp, ?_⟩
      dsimp only
      have hcn : (⟨b.x + 1, b.y + 0⟩ : Position) = c := by
        rw [← hmk]
        simp only [Position.mk.injEq]
        exact ⟨by omega, by omega⟩
      rw [hcn, if_pos (show inBounds g c ∧ isPath g c = true from hok)]
    · refine ⟨⟨0, 1⟩, by simp, ?_⟩
      dsimp only
      have hcn : (⟨b.x + 0, b.y + 1⟩ : Position) = c := by
        rw [← hmk]
        simp only [Position.mk.injEq]
        exact ⟨by omega, by omega⟩
      rw [hcn, if_pos (show inBounds g c ∧ isPath g c = true from hok)]
    · refine ⟨⟨-1, 0⟩, by simp, ?_⟩
      dsimp only
      have hcn : (⟨b.x + -1, b.y + 0⟩ : Position) = c := by
        rw [← hmk]
        simp only [Position.mk.injEq]
        exact ⟨by omega, by omega⟩
      rw [hcn, if_pos (show inBounds g c ∧ isPath g c = true from hok)]

theorem bfsTraceF_acc (g : MazeGrid) :
    ∀ (fuel : Nat) (V : List Position) (Q acc : List (Position × Nat)),
    bfsTraceF g fuel V Q acc = acc ++ bfsTraceF g fuel V Q [] := by
  intro fuel
  induction fuel with
  | zero =>
    intro V Q acc
    simp [bfsTraceF]
  | succ fuel ih =>
    intro V Q acc
    cases Q with
    | nil => simp [bfsTraceF]
    | cons next rest =>
      rw [bfsTraceF, bfsTraceF]
      split
      · exact ih V rest acc
      · rw [ih _ _ (acc ++ [next]), ih _ _ ([] ++ [next])]
        simp

theorem bfsLoop_eq_foldl (g : MazeGrid) :
    ∀ (fuel : Nat) (V : List Position) (Q : List (Position × Nat))
      (far : Position × Nat),
    bfsLoopF g fuel V Q far = List.foldl stepFar far (bfsTraceF g fuel V Q []) := by
  intro fuel
  induction fuel with
  | zero =>
    intro V Q far
    simp [bfsLoopF, bfsTraceF]
  | succ fuel ih =>
    intro V Q far
    cases Q with
    | nil => simp [bfsLoopF, bfsTraceF]
    | cons next rest =>
      rw [bfsLoopF, bfsTraceF]
      split
      · exact ih V rest far
      · dsimp only
        rw [ih]
        simp only [List.nil_append]
        rw [bfsTraceF_acc g fuel _ _ [next]]
        simp only [List.singleton_append, List.foldl_cons]
        rfl

theorem foldl_stepFar_split :
    ∀ (T : List (Position × Nat)) (far : Position × Nat),
    (List.foldl stepFar far T = far ∧ ∀ x ∈ T, x.2 ≤ far.2) ∨
    (∃ T₁ e T₂, T = T₁ ++ e :: T₂ ∧ List.foldl stepFar far T = e ∧ far.2 < e.2 ∧
      (∀ x ∈ T₁, x.2 < e.2) ∧ (∀ x ∈ T₂, x.2 ≤ e.2)) := by
  intro T
  induction T with
  | nil =>
    intro far
    exact Or.inl ⟨rfl, by simp⟩
  | cons x T ih =>
    intro far
    rw [List.foldl_cons]
    by_cases hx : far.2 < x.2
    · have hstep : stepFar far x = x := by rw [stepFar, if_pos hx]
      rw [hstep]
      rcases ih x with ⟨heq, hall⟩ | ⟨T₁, e, T₂, hsplit, heq, hgt, h₁, h₂⟩
      · refine Or.inr ⟨[], x, T, by simp, heq, hx, by simp, hall⟩
      · refine Or.inr ⟨x :: T₁, e, T₂, by rw [hsplit]; rfl, heq, by omega, ?_, h₂⟩
        intro y hy
        rcases List.mem_cons.mp hy with rfl | hy
        · omega
        · exact h₁ y hy
    · have hstep : stepFar far x = far := by rw [stepFar, if_neg hx]
      rw [hstep]
      rcases ih far with ⟨heq, hall⟩ | ⟨T₁, e, T₂, hsplit, heq, hgt, h₁, h₂⟩
      · refine Or.inl ⟨heq, ?_⟩
        intro y hy
        rcases List.mem_cons.mp hy with rfl | hy
        · omega
        · exact hall y hy
      · refine Or.inr ⟨x :: T₁, e, T₂, by rw [hsplit]; rfl, heq, hgt, ?_, h₂⟩
        intro y hy
        rcases List.mem_cons.mp hy with rfl | hy
        · omega
        · exact h₁ y hy

theorem length_allCells (g : MazeGrid) :
    (allCells g).length = gridHeight g * gridWidth g := by
  rw [allCells, List.length_flatMap]
  simp [Function.comp_def]

theorem mem_allCells {g : MazeGrid} {p : Position} (h : inBounds g p) :
    p ∈ allCells g := by
  obtain ⟨px, py⟩ := p
  obtain ⟨hy0, hyH, hx0, hxW⟩ := h
  dsimp only at hy0 hyH hx0 hxW
  rw [allCells]
  refine List.mem_flatMap.mpr ⟨py.toNat, ?_, ?_⟩
  · rw [List.mem_range]
    omega
  · refine List.mem_map.mpr ⟨px.toNat, ?_, ?_⟩
    · rw [List.mem_range]
      omega
    · simp only [Position.mk.injEq]
      constructor <;> omega

theorem countP_lt_of_pointwise {α : Type} {p q : α → Bool} :
    ∀ {l : List α}, (∀ a ∈ l, p a = true → q a = true) →
    ∀ a ∈ l, q a = true → p a = false → l.countP p < l.countP q := by
  intro l
  induction l with
  | nil =>
    intro _ a ha
    cases ha
  | cons x l ih =>
    intro hle a ha hqa hpa
    rw [List.countP_cons, List.countP_cons]
    have hmono : l.countP p ≤ l.countP q :=
      List.countP_mono_left (fun y hy => hle y (List.mem_cons_of_mem _ hy))
    rcases List.mem_cons.mp ha with rfl | ha'
    · rw [hpa, hqa]
      simp only [Bool.false_eq_true, if_false, if_true]
      omega
    · have hlt := ih (fun y hy => hle y (List.mem_cons_of_mem _ hy)) a ha' hqa hpa
      by_cases hpx : p x = true
      · rw [hpx, hle x (List.mem_cons_self _ _) hpx]
        omega
      · rw [Bool.not_eq_true] at hpx
        rw [hpx]
        simp only [Bool.false_eq_true, if_false]
        split <;> omega

theorem unvisitedCount_cons_lt {g : MazeGrid} {V : List Position} {a : Position}
    (hok : nodeOk g a) (hnv : a ∉ V) :
    unvisitedCount g (a :: V) < unvisitedCount g V := by
  rw [unvisitedCount, unvisitedCount]
  refine countP_lt_of_pointwise ?_ a (mem_allCells hok.1) ?_ ?_
  · intro y hy h
    simp only [Bool.and_eq_true, Bool.not_eq_true', decide_eq_true_eq,
      decide_eq_false_iff_not] at h ⊢
    exact ⟨h.1, fun hv => h.2 (List.mem_cons_of_mem _ hv)⟩
  · simp only [Bool.and_eq_true, Bool.not_eq_true', decide_eq_true_eq,
      decide_eq_false_iff_not]
    exact ⟨hok, hnv⟩
  · simp

theorem unvisitedCount_le (g : MazeGrid) (V : List Position) :
    unvisitedCount g V ≤ gridHeight g * gridWidth g := by
  rw [unvisitedCount, ← length_allCells g]
  exact List.countP_le_length _

theorem inv_advance {g : MazeGrid} {E : Position} {D : Nat} {V : List Position}
    {B : List (Position × Nat)} (inv : BfsInv g E D V [] B) :
    BfsInv g E (D + 1) V B [] := by
  refine ⟨?_, ?_, ?_, ?_, ?_, ?_, ?_⟩
  · intro e he
    exact inv.qsound e (by simpa using he)
  · intro e he
    exact inv.db e (by simpa using he)
  · intro e he
    cases he
  · intro v hv
    obtain ⟨d, hd, hle⟩ := inv.vsound v hv
    exact ⟨d, hd, by omega⟩
  · intro v hv c hadj hok
    rcases inv.vclosed v hv c hadj hok with h | ⟨d, hd⟩
    · exact Or.inl h
    · exact Or.inr ⟨d, by simpa using hd⟩
  · intro p d hd hlt
    rcases Nat.lt_or_ge d D with h | h
    · exact inv.near p d hd h
    · have hdD : d = D := by omega
      subst hdD
      rcases inv.frontier p hd with h | h
      · exact h
      · cases h
  · intro p hd
    obtain ⟨b, hb, hadj, hok⟩ := isDist_pred hd
    have hbV : b ∈ V := by
      rcases inv.frontier b hb with h | h
      · exact h
      · cases h
    rcases inv.vclosed b hbV p hadj hok with h | ⟨d', hd'⟩
    · exact Or.inl h
    · have hd'' : (p, d') ∈ B := by simpa using hd'
      have : d' = D + 1 := inv.db _ hd''
      subst this
      exact Or.inr hd''

theorem invN_of_inv {g : MazeGrid} {E : Position} {D : Nat} {V : List Position}
    {A B : List (Position × Nat)} (inv : BfsInv g E D V A B) : InvN g E V (A ++ B) := by
  cases A with
  | cons a A' => exact ⟨D, a :: A', B, rfl, inv, fun _ => by simp⟩
  | nil =>
    cases B with
    | nil => exact ⟨D, [], [], rfl, inv, fun h => absurd rfl h⟩
    | cons b B' =>
      exact ⟨D + 1, b :: B', [], by simp, inv_advance inv, fun _ => by simp⟩

theorem inv_pop_stale {g : MazeGrid} {E : Position} {D : Nat} {V : List Position}
    {a : Position × Nat} {A B : List (Position × Nat)}
    (inv : BfsInv g E D V (a :: A) B) (hv : a.1 ∈ V) : BfsInv g E D V A B := by
  refine ⟨?_, ?_, inv.db, inv.vsound, ?_, inv.near, ?_⟩
  · intro e he
    exact inv.qsound e (List.mem_cons_of_mem a he)
  · intro e he
    exact inv.da e (List.mem_cons_of_mem a he)
  · intro v hv' c hadj hok
    rcases inv.vclosed v hv' c hadj hok with h | ⟨d, hd⟩
    · exact Or.inl h
    · rcases List.mem_cons.mp hd with heq | hmem
      · have : c = a.1 := congrArg Prod.fst heq
        rw [this]
        exact Or.inl hv
      · exact Or.inr ⟨d, hmem⟩
  · intro p hp
    rcases inv.frontier p hp with h | h
    · exact Or.inl h
    · rcases List.mem_cons.mp h with heq | hmem
      · have : p = a.1 := congrArg Prod.fst heq
        rw [this]
        exact Or.inl hv
      · exact Or.inr hmem

theorem inv_pop_fresh {g : MazeGrid} {E : Position} {D : Nat} {V : List Position}
    {a : Position × Nat} {A B : List (Position × Nat)}
    (inv : BfsInv g E D V (a :: A) B) (hv : a.1 ∉ V) :
    BfsInv g E D (a.1 :: V) A (B ++ (neighbors g a.1).map (fun n => (n, a.2 + 1))) ∧
    IsDist g E a.1 D := by
  have ha2 : a.2 = D := inv.da a (List.mem_cons_self _ _)
  obtain ⟨hreach, hok⟩ := inv.qsound a (List.mem_cons_self _ _)
  have hreachD : ReachN g E a.1 D := ha2 ▸ hreach
  obtain ⟨d0, hd0, hle⟩ := exists_isDist hreachD
  have hd0D : d0 = D := by
    rcases Nat.lt_or_ge d0 D with h | h
    · exact absurd (inv.near _ _ hd0 h) hv
    · omega
  subst hd0D
  refine ⟨⟨?_, ?_, ?_, ?_, ?_, ?_, ?_⟩, hd0⟩
  · intro e he
    rcases List.mem_append.mp he with hA | hBP
    · exact inv.qsound e (List.mem_cons_of_mem a (List.mem_append.mpr (Or.inl hA)))
    · rcases List.mem_append.mp hBP with hB | hP
      · exact inv.qsound e (List.mem_cons_of_mem a (List.mem_append.mpr (Or.inr hB)))
      · obtain ⟨n, hn, rfl⟩ := List.mem_map.mp hP
        obtain ⟨hadj, hnok⟩ := mem_neighbors.mp hn
        exact ⟨ReachN.succ hreach hadj hnok, hnok⟩
  · intro e he
    exact inv.da e (List.mem_cons_of_mem a he)
  · intro e he
    rcases List.mem_append.mp he with hB | hP
    · exact inv.db e hB
    · obtain ⟨n, hn, rfl⟩ := List.mem_map.mp hP
      dsimp only
      omega
  · intro v hv'
    rcases List.mem_cons.mp hv' with rfl | hmem
    · exact ⟨d0, hd0, le_rfl⟩
    · exact inv.vsound v hmem
  · intro v hv' c hadj hok'
    rcases List.mem_cons.mp hv' with rfl | hmem
    · exact Or.inr ⟨a.2 + 1, List.mem_append.mpr (Or.inr (List.mem_append.mpr (Or.inr
        (List.mem_map.mpr ⟨c, mem_neighbors.mpr ⟨hadj, hok'⟩, rfl⟩))))⟩
    · rcases inv.vclosed v hmem c hadj hok' with h | ⟨d, hd⟩
      · exact Or.inl (List.mem_cons_of_mem _ h)
      · rcases List.mem_cons.mp hd with heq | hmem2
        · have : c = a.1 := congrArg Prod.fst heq
          rw [this]
          exact Or.inl (List.mem_cons_self _ _)
        · rcases List.mem_append.mp hmem2 with hA | hB
          · exact Or.inr ⟨d, List.mem_append.mpr (Or.inl hA)⟩
          · exact Or.inr ⟨d, List.mem_append.mpr (Or.inr (List.mem_append.mpr (Or.inl hB)))⟩
  · intro p d hd hlt
    exact List.mem_cons_of_mem _ (inv.near p d hd hlt)
  · intro p hp
    rcases inv.frontier p hp with h | h
    · exact Or.inl (List.mem_cons_of_mem _ h)
    · rcases List.mem_cons.mp h with heq | hmem
      · have : p = a.1 := congrArg Prod.fst heq
        rw [this]
        exact Or.inl (List.mem_cons_self _ _)
      · exact Or.inr hmem

theorem neighbors_length_le (g : MazeGrid) (p : Position) :
    (neighbors g p).length ≤ 4 := by
  rw [neighbors]
  exact le_trans (List.length_filterMap_le _ _) (by simp)

/-- The main BFS theorem: with enough fuel, from any state satisfying the
normalized invariant, the discovery trace records only true distances and
discovers every cell at any distance that is not already visited. -/
theorem bfs_main (g : MazeGrid) (E : Position) :
    ∀ (fuel : Nat) (V : List Position) (Q : List (Position × Nat)),
    InvN g E V Q →
    Q.length + 4 * unvisitedCount g V < fuel →
    TraceGood g E V (bfsTraceF g fuel V Q []) := by
  intro fuel
  induction fuel with
  | zero =>
    intro V Q hinv hfuel
    omega
  | succ fuel ih =>
    intro V Q hinv hfuel
    obtain ⟨D, A, B, rfl, inv, hnorm⟩ := hinv
    cases A with
    | nil =>
      have hB : B = [] := by
        by_cases h : B = []
        · exact h
        · exact absurd rfl (hnorm h)
      subst hB
      refine ⟨?_, ?_⟩
      · intro e he
        simp [bfsTraceF] at he
      · intro p d hd
        left
        rcases Nat.lt_or_ge d D with h | h
        · exact inv.near p d hd h
        · rcases Nat.eq_or_lt_of_le h with heq | hgt
          · subst heq
            rcases inv.frontier p hd with hV | hA
            · exact hV
            · cases hA
          · exfalso
            obtain ⟨c, hc⟩ := isDist_exists_at hd (D + 1) (by omega)
            obtain ⟨b, hb, hadj, hok⟩ := isDist_pred hc
            have hbV : b ∈ V := by
              rcases inv.frontier b hb with h' | h'
              · exact h'
              · cases h'
            rcases inv.vclosed b hbV c hadj hok with h' | ⟨d', hd'⟩
            · obtain ⟨dc, hdc, hdcle⟩ := inv.vsound c h'
              have := isDist_unique hdc hc
              omega
            · simp at hd'
    | cons a A' =>
      have hq : (a :: A') ++ B = a :: (A' ++ B) := rfl
      rw [hq] at hfuel ⊢
      rw [bfsTraceF]
      by_cases hv : a.1 ∈ V
      · rw [if_pos hv]
        refine ih V (A' ++ B) (invN_of_inv (inv_pop_stale inv hv)) ?_
        simp only [List.length_cons] at hfuel
        omega
      · rw [if_neg hv]
        obtain ⟨inv', hdist⟩ := inv_pop_fresh inv hv
        have hok : nodeOk g a.1 := (inv.qsound a (List.mem_cons_self _ _)).2
        have ha2 : a.2 = D := inv.da a (List.mem_cons_self _ _)
        rw [bfsTraceF_acc]
        simp only [List.nil_append, List.singleton_append]
        rw [List.append_assoc]
        have hmeas : (A' ++ (B ++ (neighbors g a.1).map (fun n => (n, a.2 + 1)))).length +
            4 * unvisitedCount g (a.1 :: V) < fuel := by
          have hu := unvisitedCount_cons_lt hok hv
          have hP : ((neighbors g a.1).map (fun n => (n, a.2 + 1))).length ≤ 4 := by
            rw [List.length_map]
            exact neighbors_length_le g a.1
          simp only [List.length_cons, List.length_append] at hfuel ⊢
          omega
        obtain ⟨hTs, hTc⟩ := ih (a.1 :: V)
          (A' ++ (B ++ (neighbors g a.1).map (fun n => (n, a.2 + 1))))
          (invN_of_inv inv') hmeas
        refine ⟨?_, ?_⟩
        · intro e he
          rcases List.mem_cons.mp he with rfl | he'
          · exact ha2 ▸ hdist
          · exact hTs e he'
        · intro p d hd
          rcases hTc p d hd with hV' | hT
          · rcases List.mem_cons.mp hV' with rfl | hV2
            · right
              have hdD : d = D := isDist_unique hd hdist
              have hpair : (a.1, d) = a := by
                rw [hdD, ← ha2]
              rw [hpair]
              exact List.mem_cons_self _ _
            · exact Or.inl hV2
          · exact Or.inr (List.mem_cons_of_mem _ hT)

/-- computeFarthestPosition on any grid, from any BFS node E: the returned
cell has maximal BFS distance from E among all connected cells, and it is the
first cell attaining that distance in the FIFO discovery order; the discovery
order lists exactly the connected cells, each with its true distance. -/
theorem computeFarthest_spec (g : MazeGrid) (E : Position) (hE : nodeOk g E) :
    ∃ dS : Nat,
      IsDist g E (computeFarthestPosition g E) dS ∧
      (∀ p d, IsDist g E p d → d ≤ dS) ∧
      ∃ T₁ T₂,
        bfsTraceF g (bfsFuel g) [] [(E, 0)] [] =
          T₁ ++ (computeFarthestPosition g E, dS) :: T₂ ∧
        (∀ x ∈ T₁, x.2 < dS) ∧ (∀ x ∈ T₂, x.2 ≤ dS) ∧
        (∀ e ∈ bfsTraceF g (bfsFuel g) [] [(E, 0)] [], IsDist g E e.1 e.2) ∧
        (∀ p d, IsDist g E p d → (p, d) ∈ bfsTraceF g (bfsFuel g) [] [(E, 0)] []) := by
  have inv0 : BfsInv g E 0 [] [(E, 0)] [] := by
    refine ⟨?_, ?_, ?_, ?_, ?_, ?_, ?_⟩
    · intro e he
      have he' : e = (E, 0) := by simpa using he
      subst he'
      exact ⟨ReachN.zero, hE⟩
    · intro e he
      have he' : e = (E, 0) := by simpa using he
      subst he'
      rfl
    · intro e he
      cases he
    · intro v hv
      cases hv
    · intro v hv
      cases hv
    · intro p d hd hlt
      omega
    · intro p hp
      have hpE : p = E := reachN_zero_eq hp.1
      subst hpE
      exact Or.inr (List.mem_cons_self _ _)
  have hmeas : ([(E, 0)] : List (Position × Nat)).length + 4 * unvisitedCount g [] <
      bfsFuel g := by
    have hle := unvisitedCount_le g []
    rw [bfsFuel]
    simp only [List.length_singleton]
    omega
  obtain ⟨hTs, hTc0⟩ := bfs_main g E (bfsFuel g) [] [(E, 0)] (invN_of_inv inv0) hmeas
  have hTc : ∀ p d, IsDist g E p d → (p, d) ∈ bfsTraceF g (bfsFuel g) [] [(E, 0)] [] := by
    intro p d hd
    rcases hTc0 p d hd with h | h
    · cases h
    · exact h
  have hsucc : bfsFuel g = (5 * (gridHeight g * gridWidth g) + 5) + 1 := by
    rw [bfsFuel]
  have hT1 : bfsTraceF g (bfsFuel g) [] [(E, 0)] [] =
      (E, 0) :: bfsTraceF g (5 * (gridHeight g * gridWidth g) + 5) [E]
        ((neighbors g E).map (fun n => (n, 1))) [] := by
    rw [hsucc, bfsTraceF]
    rw [if_neg (by simp : ¬ ((E, 0) : Position × Nat).1 ∈ ([] : List Position))]
    rw [bfsTraceF_acc]
    simp
  obtain ⟨T', hT'⟩ : ∃ T', bfsTraceF g (bfsFuel g) [] [(E, 0)] [] = (E, 0) :: T' :=
    ⟨_, hT1⟩
  have hS : computeFarthestPosition g E =
      (List.foldl stepFar (E, 0) (bfsTraceF g (bfsFuel g) [] [(E, 0)] [])).1 := by
    rw [computeFarthestPosition, bfsLoop_eq_foldl]
  rcases foldl_stepFar_split (bfsTraceF g (bfsFuel g) [] [(E, 0)] []) (E, 0) with
    ⟨heq, hall⟩ | ⟨T₁, e, T₂, hsplit, heq, hgt, h₁, h₂⟩
  · rw [heq] at hS
    refine ⟨0, ?_, ?_, [], T', ?_, ?_, ?_, hTs, hTc⟩
    · rw [hS]
      exact isDist_zero
    · intro p d hd
      have := hall (p, d) (hTc p d hd)
      simpa using this
    · rw [hT', hS]
      simp
    · intro x hx
      cases hx
    · intro x hx
      have := hall x (by rw [hT']; exact List.mem_cons_of_mem _ hx)
      simpa using this
  · obtain ⟨S', dS'⟩ := e
    rw [heq] at hS
    dsimp only at hS
    refine ⟨dS', ?_, ?_, T₁, T₂, ?_, h₁, h₂, hTs, hTc⟩
    · rw [hS]
      have hmem : (S', dS') ∈ bfsTraceF g (bfsFuel g) [] [(E, 0)] [] := by
        rw [hsplit]
        exact List.mem_append_right _ (List.mem_cons_self _ _)
      exact hTs _ hmem
    · intro p d hd
      have hmem := hTc p d hd
      rw [hsplit] at hmem
      rcases List.mem_append.mp hmem with h | h
      · have := h₁ _ h
        dsimp only at this
        omega
      · rcases List.mem_cons.mp h with hpe | h
        · have : d = dS' := congrArg Prod.snd hpe
          omega
        · have := h₂ _ h
          dsimp only at this
          omega
    · rw [hS]
      exact hsplit

/-- C5: for every generated maze, the start cell has maximal 4-directional
BFS distance from the exit over the walkable in-bounds cells, and among the
cells the FIFO BFS expansion from the exit discovers, it is the first one
found at that maximal distance; the discovery order lists exactly the cells
connected to the exit, each with its true distance. -/
theorem C5_start_bfs_farthest (size : Nat) (hs : 1 ≤ size) (rng : List Nat) :
    ∃ dS : Nat,
      IsDist (generateMaze size rng).1.grid (generateMaze size rng).1.exit
        (generateMaze size rng).1.start dS ∧
      (∀ p d, IsDist (generateMaze size rng).1.grid (generateMaze size rng).1.exit p d →
        d ≤ dS) ∧
      ∃ T₁ T₂,
        bfsTraceF (generateMaze size rng).1.grid (bfsFuel (generateMaze size rng).1.grid)
            [] [((generateMaze size rng).1.exit, 0)] [] =
          T₁ ++ ((generateMaze size rng).1.start, dS) :: T₂ ∧
        (∀ x ∈ T₁, x.2 < dS) ∧ (∀ x ∈ T₂, x.2 ≤ dS) ∧
        (∀ e ∈ bfsTraceF (generateMaze size rng).1.grid
            (bfsFuel (generateMaze size rng).1.grid) []
            [((generateMaze size rng).1.exit, 0)] [],
          IsDist (generateMaze size rng).1.grid (generateMaze size rng).1.exit e.1 e.2) ∧
        (∀ p d,
          IsDist (generateMaze size rng).1.grid (generateMaze size rng).1.exit p d →
          (p, d) ∈ bfsTraceF (generateMaze size rng).1.grid
            (bfsFuel (generateMaze size rng).1.grid) []
            [((generateMaze size rng).1.exit, 0)] []) := by
  obtain ⟨hrect, hperf, hiff, hborder⟩ := generateMaze_spec size hs rng
  have hexitw : walkableAt (generateMaze size rng).1.grid (generateMaze size rng).1.exit :=
    (hiff _).mpr (Or.inr rfl)
  have hH : gridHeight (generateMaze size rng).1.grid = size * 2 + 1 :=
    gridHeight_rect hrect
  have hW : gridWidth (generateMaze size rng).1.grid = size * 2 + 1 :=
    gridWidth_rect hrect (by omega)
  have hnodeE : nodeOk (generateMaze size rng).1.grid (generateMaze size rng).1.exit := by
    obtain ⟨hb, -⟩ := hborder
    refine ⟨?_, isPath_of_walkableAt hexitw⟩
    unfold inBounds
    rw [hH, hW]
    exact ⟨hb.2.2.1, hb.2.2.2, hb.1, hb.2.1⟩
  have hstart : (generateMaze size rng).1.start =
      computeFarthestPosition (generateMaze size rng).1.grid
        (generateMaze size rng).1.exit := by
    simp only [generateMaze]
  rw [hstart]
  exact computeFarthest_spec (generateMaze size rng).1.grid
    (generateMaze size rng).1.exit hnodeE

/-- C5 witness: the maze of size 1 from the empty randomness stream. -/
theorem C5_start_bfs_farthest_witness :
    1 ≤ 1 ∧
    ∃ dS : Nat,
      IsDist (generateMaze 1 []).1.grid (generateMaze 1 []).1.exit
        (generateMaze 1 []).1.start dS ∧
      (∀ p d, IsDist (generateMaze 1 []).1.grid (generateMaze 1 []).1.exit p d →
        d ≤ dS) ∧
      ∃ T₁ T₂,
        bfsTraceF (generateMaze 1 []).1.grid (bfsFuel (generateMaze 1 []).1.grid)
            [] [((generateMaze 1 []).1.exit, 0)] [] =
          T₁ ++ ((generateMaze 1 []).1.start, dS) :: T₂ ∧
        (∀ x ∈ T₁, x.2 < dS) ∧ (∀ x ∈ T₂, x.2 ≤ dS) ∧
        (∀ e ∈ bfsTraceF (generateMaze 1 []).1.grid
            (bfsFuel (generateMaze 1 []).1.grid) [] [((generateMaze 1 []).1.exit, 0)] [],
          IsDist (generateMaze 1 []).1.grid (generateMaze 1 []).1.exit e.1 e.2) ∧
        (∀ p d,
          IsDist (generateMaze 1 []).1.grid (generateMaze 1 []).1.exit p d →
          (p, d) ∈ bfsTraceF (generateMaze 1 []).1.grid
            (bfsFuel (generateMaze 1 []).1.grid) [] [((generateMaze 1 []).1.exit, 0)] []) :=
  ⟨le_rfl, C5_start_bfs_farthest 1 le_rfl []⟩

end Amaze
